import Mathlib

/-!
# Verification of the bloop query/condition subsystem

Shallow embedding of the condition expression tree, renderer, search
execution engine, query builder, change tracking and model
serialization of the bloop object mapper, together with proofs of the
behavioural claims about them.

The only component whose implementation ships in this snapshot is
`bloop/model.py` (model serialization); it is embedded directly from
source.  The condition tree, renderer, search engine, query builder and
change tracking are present only through their test suites, so those
components are modelled from the specification, as marked on each
definition.
-/

namespace Bloop

/-! ## Condition expression tree

Modelled from the spec: `bloop/conditions.py` is not in the source
snapshot.  §3 of the spec: a condition is a tagged variant over
`Empty`, comparisons / `BeginsWith` / `Between` / `Contains` / `In`
leaves, and the meta conditions `And`, `Or`, `Not`.  Composite
conditions hold ordered child lists and the overall graph may be
cyclic, so (as §9 suggests for ownership-discipline targets) the graph
is represented as an arena of nodes addressed by index, with composite
nodes storing child indices. -/

/-- A path segment of a column reference: an integer index or a string key. -/
inductive PathSeg
  | idx (i : Nat)
  | key (k : String)
deriving DecidableEq, Repr

/-- Modelled from the spec: one node of a condition graph.  A leaf
carries its operation tag, an operand column reference (column id plus
path) and already-marshalled operand values; `and`/`or` hold ordered
lists of child indices; `not` holds exactly one child index. -/
inductive CondNode
  | empty
  | leaf (op : String) (column : Nat) (path : List PathSeg) (values : List Nat)
  | and (children : List Nat)
  | or (children : List Nat)
  | not (child : Nat)
deriving DecidableEq, Repr

/-- A condition graph: an arena of nodes addressed by index. -/
abbrev Graph := List CondNode

/-- Node lookup; an out-of-range index reads as the empty condition. -/
def node (g : Graph) (i : Nat) : CondNode := g.getD i .empty

/-- The child-index list of a node. -/
def childrenOf : CondNode → List Nat
  | .empty => []
  | .leaf _ _ _ _ => []
  | .and cs => cs
  | .or cs => cs
  | .not c => [c]

/-- Child indices of the node stored at `i`. -/
def childIdx (g : Graph) (i : Nat) : List Nat := childrenOf (node g i)

/-- Modelled from the spec (§4.1 truthiness): a condition is empty iff
it is the literal `Empty` variant or a meta `And`/`Or` with zero
children; `Not` is never empty. -/
def isEmptyNode : CondNode → Bool
  | .empty => true
  | .and [] => true
  | .or [] => true
  | _ => false

/-- Emptiness of the condition rooted at `i`. -/
def isEmpty (g : Graph) (i : Nat) : Bool := isEmptyNode (node g i)

/-- The edge relation of a condition graph: `edgeRel g i j` holds when
`j` occurs in the child list of the node stored at `i`. -/
def edgeRel (g : Graph) (i j : Nat) : Prop := j ∈ childIdx g i

instance (g : Graph) (i j : Nat) : Decidable (edgeRel g i j) :=
  inferInstanceAs (Decidable (j ∈ childIdx g i))

/-- One round of breadth-first expansion: keep the frontier and add
every child of every node in it. -/
def reachStep (g : Graph) (s : Finset Nat) : Finset Nat :=
  s ∪ s.biUnion (fun i => (childIdx g i).toFinset)

/-- Total number of child-list slots in the arena; used as an iteration
bound for the breadth-first closure. -/
def totalEdges (g : Graph) : Nat := (g.map (fun n => (childrenOf n).length)).sum

theorem subset_reachStep (g : Graph) (s : Finset Nat) : s ⊆ reachStep g s :=
  Finset.subset_union_left

theorem subset_iterate_reachStep (g : Graph) (s : Finset Nat) (k : Nat) :
    s ⊆ (reachStep g)^[k] s := by
  induction k with
  | zero => simp
  | succ k ih =>
    rw [Function.iterate_succ_apply']
    exact ih.trans (subset_reachStep g _)

theorem childIdx_subset_flatMap (g : Graph) (i : Nat) :
    ∀ j ∈ childIdx g i, j ∈ g.flatMap childrenOf := by
  intro j hj
  unfold childIdx node at hj
  by_cases h : i < g.length
  · rw [List.getD_eq_getElem _ _ h] at hj
    exact List.mem_flatMap.mpr ⟨g[i], List.getElem_mem h, hj⟩
  · rw [List.getD_eq_default _ _ (Nat.le_of_not_lt h)] at hj
    simp [childrenOf] at hj

theorem totalEdges_eq (g : Graph) : (g.flatMap childrenOf).length = totalEdges g := by
  rw [List.length_flatMap]; rfl

/-- The universe of indices any frontier expansion can visit: every
index occurring in some child list of the arena. -/
def baseUniverse (g : Graph) : Finset Nat := (g.flatMap childrenOf).toFinset

theorem card_baseUniverse_le (g : Graph) : (baseUniverse g).card ≤ totalEdges g := by
  have h2 : (g.flatMap childrenOf).toFinset.card ≤ (g.flatMap childrenOf).length :=
    List.toFinset_card_le _
  have h3 := totalEdges_eq g
  unfold baseUniverse
  omega

theorem reachStep_subset_base (g : Graph) (s : Finset Nat)
    (hs : s ⊆ baseUniverse g) : reachStep g s ⊆ baseUniverse g := by
  intro i hi
  rcases Finset.mem_union.mp hi with h | h
  · exact hs h
  · rcases Finset.mem_biUnion.mp h with ⟨j, _, hij⟩
    have hmem : i ∈ childIdx g j := List.mem_toFinset.mp hij
    have : i ∈ g.flatMap childrenOf := childIdx_subset_flatMap g j i hmem
    exact List.mem_toFinset.mpr this

theorem iterate_reachStep_subset_base (g : Graph) (s : Finset Nat)
    (hs : s ⊆ baseUniverse g) (k : Nat) :
    (reachStep g)^[k] s ⊆ baseUniverse g := by
  induction k with
  | zero => simpa using hs
  | succ k ih =>
    rw [Function.iterate_succ_apply']
    exact reachStep_subset_base g _ ih

/-- Once the breadth-first expansion stabilizes, it stays stable. -/
theorem iterate_of_fixed {f : Finset Nat → Finset Nat} {s : Finset Nat}
    (h : f s = s) (k : Nat) : f^[k] s = s := by
  induction k with
  | zero => rfl
  | succ k ih => rw [Function.iterate_succ_apply', ih, h]

/-- The expansion either stabilizes within `k` rounds or has grown the
frontier by at least `k` elements. -/
theorem reachStep_grow (g : Graph) (s : Finset Nat) (k : Nat) :
    (reachStep g)^[k + 1] s = (reachStep g)^[k] s ∨
      s.card + k ≤ ((reachStep g)^[k] s).card := by
  induction k with
  | zero => right; simp
  | succ k ih =>
    by_cases hk : (reachStep g)^[k + 1] s = (reachStep g)^[k] s
    · left
      simp only [Function.iterate_succ_apply'] at hk ⊢
      rw [hk]
      exact hk
    · rcases ih with ih | ih
      · exact absurd ih hk
      · right
        have hsub : (reachStep g)^[k] s ⊆ (reachStep g)^[k + 1] s := by
          rw [Function.iterate_succ_apply']
          exact subset_reachStep g _
        have hssub : (reachStep g)^[k] s ⊂ (reachStep g)^[k + 1] s :=
          HasSubset.Subset.ssubset_of_ne hsub (fun h => hk h.symm)
        have := Finset.card_lt_card hssub
        omega

/-- After `totalEdges g + 1` rounds the expansion of any in-universe
frontier is a fixpoint: traversal of a condition graph, cyclic or not,
completes within a bounded number of rounds. -/
theorem closure_fixed (g : Graph) (s : Finset Nat) (hs : s ⊆ baseUniverse g) :
    reachStep g ((reachStep g)^[totalEdges g + 1] s) =
      (reachStep g)^[totalEdges g + 1] s := by
  rcases reachStep_grow g s (totalEdges g + 1) with h | h
  · rw [Function.iterate_succ_apply'] at h
    exact h
  · have hsub := iterate_reachStep_subset_base g s hs (totalEdges g + 1)
    have hcard : ((reachStep g)^[totalEdges g + 1] s).card ≤ totalEdges g :=
      le_trans (Finset.card_le_card hsub) (card_baseUniverse_le g)
    omega

/-- Soundness of the closure: everything collected is reachable from
some element of the start frontier. -/
theorem mem_iterate_reachStep_imp (g : Graph) (s : Finset Nat) :
    ∀ k i, i ∈ (reachStep g)^[k] s →
      ∃ a ∈ s, Relation.ReflTransGen (edgeRel g) a i := by
  intro k
  induction k with
  | zero =>
    intro i hi
    rw [Function.iterate_zero_apply] at hi
    exact ⟨i, hi, Relation.ReflTransGen.refl⟩
  | succ k ih =>
    intro i hi
    rw [Function.iterate_succ_apply'] at hi
    rcases Finset.mem_union.mp hi with h | h
    · exact ih i h
    · rcases Finset.mem_biUnion.mp h with ⟨j, hj, hij⟩
      obtain ⟨a, ha, hreach⟩ := ih j hj
      exact ⟨a, ha, hreach.tail (List.mem_toFinset.mp hij)⟩

/-- Completeness and soundness of the bounded closure: it collects
exactly what is reachable from the start frontier. -/
theorem mem_closure_iff (g : Graph) (s : Finset Nat) (hs : s ⊆ baseUniverse g)
    (i : Nat) :
    i ∈ (reachStep g)^[totalEdges g + 1] s ↔
      ∃ a ∈ s, Relation.ReflTransGen (edgeRel g) a i := by
  constructor
  · exact mem_iterate_reachStep_imp g s _ i
  · rintro ⟨a, ha, hreach⟩
    induction hreach with
    | refl => exact subset_iterate_reachStep g s _ ha
    | tail _ hedge ih =>
      rw [← closure_fixed g s hs]
      exact Finset.mem_union_right _ (Finset.mem_biUnion.mpr
        ⟨_, ih, List.mem_toFinset.mpr hedge⟩)

/-- Modelled from the spec (§4.1 traversal): the distinct conditions
*inside* the condition rooted at `root`, collected by cycle-aware
breadth-first expansion of the root's direct children.  A non-meta
condition contributes no inner conditions, a meta condition contributes
its children and everything reachable from them, and the root itself
appears exactly when a cycle leads back to it. -/
def strictReach (g : Graph) (root : Nat) : Finset Nat :=
  (reachStep g)^[totalEdges g + 1] (childIdx g root).toFinset

/-- Modelled from the spec (§4.1): cycle-aware enumeration of the
distinct inner conditions of `root`, each reported exactly once (the
model abstracts the report order to a canonical sorted one). -/
def iterConditions (g : Graph) (root : Nat) : List Nat :=
  (strictReach g root).sort (· ≤ ·)

theorem childIdx_toFinset_subset_base (g : Graph) (root : Nat) :
    (childIdx g root).toFinset ⊆ baseUniverse g := by
  intro i hi
  exact List.mem_toFinset.mpr
    (childIdx_subset_flatMap g root i (List.mem_toFinset.mp hi))

/-- The collected inner conditions are exactly the ones strictly
reachable from the root: one or more child-list edges away. -/
theorem mem_strictReach_iff (g : Graph) (root i : Nat) :
    i ∈ strictReach g root ↔ Relation.TransGen (edgeRel g) root i := by
  rw [Relation.TransGen.head'_iff]
  unfold strictReach
  rw [mem_closure_iff g _ (childIdx_toFinset_subset_base g root) i]
  constructor
  · rintro ⟨a, ha, hreach⟩
    exact ⟨a, List.mem_toFinset.mp ha, hreach⟩
  · rintro ⟨a, ha, hreach⟩
    exact ⟨a, List.mem_toFinset.mpr ha, hreach⟩

theorem mem_iterConditions_iff (g : Graph) (root i : Nat) :
    i ∈ iterConditions g root ↔ Relation.TransGen (edgeRel g) root i := by
  unfold iterConditions
  rw [Finset.mem_sort]
  exact mem_strictReach_iff g root i

/-- Modelled from the spec (§4.1) and the lengths its examples pin: the
empty condition has length 0, a non-meta leaf has length 1, `Not` is
length-transparent (its length is its single child's length, so
`Not(Empty)` has length 0), and an `And`/`Or` has one unit of length per
distinct inner condition the cycle-aware iteration reports.  The `seen`
path makes the `Not`-unwrapping itself cycle-aware: a pure `Not` cycle
contains no countable condition and has length 0.  The fuel
`g.length + 1` always suffices because the unwrapping path visits
pairwise-distinct in-arena indices. -/
def condLenAux (g : Graph) : Nat → List Nat → Nat → Nat
  | 0, _, _ => 0
  | fuel + 1, seen, i =>
    match node g i with
    | .empty => 0
    | .leaf _ _ _ _ => 1
    | .and _ => (iterConditions g i).length
    | .or _ => (iterConditions g i).length
    | .not c => if i ∈ seen then 0 else condLenAux g fuel (i :: seen) c

/-- The length of the condition rooted at `root`. -/
def condLen (g : Graph) (root : Nat) : Nat :=
  condLenAux g (g.length + 1) [] root

/-- The claim's candidate measure: one unit per child-list slot of
every node the traversal visits (the root plus everything strictly
reachable from it), so a repeated reference counts once per occurrence
in a child list. -/
def reachEdgeCount (g : Graph) (root : Nat) : Nat :=
  (insert root (strictReach g root)).sum (fun i => (childIdx g i).length)

/-- A node that reads as anything but `empty` is stored in the arena. -/
theorem node_lt_length (g : Graph) (i : Nat) (h : node g i ≠ CondNode.empty) :
    i < g.length := by
  by_contra hlt
  exact h (by unfold node; rw [List.getD_eq_default _ _ (Nat.le_of_not_lt hlt)])

/-- A duplicate-free list of indices below `L` has at most `L` entries. -/
theorem nodup_bounded_length (L : Nat) (seen : List Nat) (hnd : seen.Nodup)
    (hlt : ∀ x ∈ seen, x < L) : seen.length ≤ L := by
  have h1 : seen.toFinset ⊆ Finset.range L := by
    intro x hx
    exact Finset.mem_range.mpr (hlt x (List.mem_toFinset.mp hx))
  have h2 := Finset.card_le_card h1
  rw [List.card_toFinset, hnd.dedup, Finset.card_range] at h2
  exact h2

/-- The length computation is fuel-insensitive once the fuel covers the
remaining arena: every recursive step pushes a distinct in-range index
onto `seen`. -/
theorem condLenAux_fuel (g : Graph) :
    ∀ f1 f2 seen i, seen.Nodup → (∀ x ∈ seen, x < g.length) →
      g.length + 1 ≤ f1 + seen.length → g.length + 1 ≤ f2 + seen.length →
      condLenAux g f1 seen i = condLenAux g f2 seen i := by
  intro f1
  induction f1 with
  | zero =>
    intro f2 seen i hnd hlt h1 _
    have := nodup_bounded_length g.length seen hnd hlt
    omega
  | succ a ih =>
    intro f2 seen i hnd hlt h1 h2
    cases f2 with
    | zero =>
      have := nodup_bounded_length g.length seen hnd hlt
      omega
    | succ b =>
      cases hn : node g i with
      | empty => simp [condLenAux, hn]
      | leaf op col path vals => simp [condLenAux, hn]
      | and cs => simp [condLenAux, hn]
      | or cs => simp [condLenAux, hn]
      | not c =>
        by_cases hmem : i ∈ seen
        · simp [condLenAux, hn, hmem]
        · have hi : i < g.length :=
            node_lt_length g i (by rw [hn]; exact fun h => CondNode.noConfusion h)
          simp only [condLenAux, hn, hmem, if_neg, ite_false]
          exact ih b (i :: seen) c (List.nodup_cons.mpr ⟨hmem, hnd⟩)
            (by
              intro x hx
              rcases List.mem_cons.mp hx with h | h
              · exact h ▸ hi
              · exact hlt x h)
            (by simp only [List.length_cons]; omega)
            (by simp only [List.length_cons]; omega)

/-- Appending an already-retired `Not` node to the `seen` path does not
change the length computation, provided the current index can only lead
back into retired territory through that node's child. -/
theorem condLenAux_sim (g : Graph) (r c0 : Nat) (hr : node g r = CondNode.not c0) :
    ∀ f seenB j, seenB.Nodup → (∀ x ∈ seenB, x < g.length) →
      (∀ x ∈ seenB, ∃ y, node g x = CondNode.not y) →
      r ∉ seenB → (c0 ∈ seenB ∨ j = c0) →
      g.length + 1 ≤ f + seenB.length →
      condLenAux g f (seenB ++ [r]) j = condLenAux g f seenB j := by
  have hrlt : r < g.length :=
    node_lt_length g r (by rw [hr]; exact fun h => CondNode.noConfusion h)
  intro f
  induction f with
  | zero =>
    intro seenB j hnd hlt _ hrB _ hfuel
    have := nodup_bounded_length g.length seenB hnd hlt
    omega
  | succ a ih =>
    intro seenB j hnd hlt hnot hrB hc0 hfuel
    have hlenB : seenB.length + 1 ≤ g.length := by
      have hext : (r :: seenB).Nodup := List.nodup_cons.mpr ⟨hrB, hnd⟩
      have hextlt : ∀ x ∈ r :: seenB, x < g.length := by
        intro x hx
        rcases List.mem_cons.mp hx with h | h
        · exact h ▸ hrlt
        · exact hlt x h
      have := nodup_bounded_length g.length (r :: seenB) hext hextlt
      simpa using this
    cases hn : node g j with
    | empty => simp [condLenAux, hn]
    | leaf op col path vals => simp [condLenAux, hn]
    | and cs => simp [condLenAux, hn]
    | or cs => simp [condLenAux, hn]
    | not c =>
      by_cases hmem : j ∈ seenB
      · have hmemA : j ∈ seenB ++ [r] := List.mem_append_left _ hmem
        simp [condLenAux, hn, hmem, hmemA]
      · by_cases hjr : j = r
        · subst hjr
          have hc : c = c0 := by
            rw [hr] at hn
            exact (CondNode.not.injEq _ _).mp hn.symm
          subst hc
          have hmemA : j ∈ seenB ++ [j] := List.mem_append_right _ (List.mem_singleton.mpr rfl)
          simp only [condLenAux, hn, hmemA, if_true, hmem, if_neg, ite_false, ite_true]
          obtain ⟨a', rfl⟩ : ∃ a', a = a' + 1 := ⟨a - 1, by omega⟩
          rcases hc0 with hc0 | hc0
          · obtain ⟨y, hy⟩ := hnot c hc0
            simp [condLenAux, hy, hc0]
          · subst hc0
            have hself : j ∈ j :: seenB := List.mem_cons_self _ _
            simp [condLenAux, hn, hself]
        · have hmemA : j ∉ seenB ++ [r] := by
            intro hcontra
            rcases List.mem_append.mp hcontra with h | h
            · exact hmem h
            · exact hjr (List.mem_singleton.mp h)
          have hj : j < g.length :=
            node_lt_length g j (by rw [hn]; exact fun h => CondNode.noConfusion h)
          simp only [condLenAux, hn, hmem, hmemA, if_neg, ite_false]
          have hcons : j :: (seenB ++ [r]) = (j :: seenB) ++ [r] := rfl
          rw [hcons]
          exact ih (j :: seenB) c (List.nodup_cons.mpr ⟨hmem, hnd⟩)
            (by
              intro x hx
              rcases List.mem_cons.mp hx with h | h
              · exact h ▸ hj
              · exact hlt x h)
            (by
              intro x hx
              rcases List.mem_cons.mp hx with h | h
              · exact ⟨c, h ▸ hn⟩
              · exact hnot x h)
            (by
              intro hcontra
              rcases List.mem_cons.mp hcontra with h | h
              · exact hjr h.symm
              · exact hrB h)
            (by
              rcases hc0 with h | h
              · exact Or.inl (List.mem_cons_of_mem _ h)
              · exact Or.inl (h ▸ List.mem_cons_self _ _))
            (by simp only [List.length_cons]; omega)

/-- `Not` is length-transparent: the length of a `Not` condition is the
length of its single child, cyclic graphs included. -/
theorem condLen_not (g : Graph) (r c : Nat) (hr : node g r = CondNode.not c) :
    condLen g r = condLen g c := by
  have hrlt : r < g.length :=
    node_lt_length g r (by rw [hr]; exact fun h => CondNode.noConfusion h)
  unfold condLen
  have hL : condLenAux g (g.length + 1) [] r = condLenAux g g.length [r] c := by
    simp [condLenAux, hr]
  rw [hL]
  have hfuel : condLenAux g g.length [r] c = condLenAux g (g.length + 1) [r] c :=
    condLenAux_fuel g g.length (g.length + 1) [r] c (List.nodup_singleton r)
      (by
        intro x hx
        rw [List.mem_singleton.mp hx]
        exact hrlt)
      (by simp) (by simp)
  rw [hfuel]
  exact condLenAux_sim g r c hr (g.length + 1) [] c List.nodup_nil
    (by intro x hx; cases hx) (by intro x hx; cases hx)
    (by intro hx; cases hx) (Or.inr rfl) (by simp)

theorem condLen_empty (g : Graph) (root : Nat)
    (h : node g root = CondNode.empty) : condLen g root = 0 := by
  simp [condLen, condLenAux, h]

theorem condLen_leaf (g : Graph) (root : Nat) (op : String) (col : Nat)
    (path : List PathSeg) (vals : List Nat)
    (h : node g root = CondNode.leaf op col path vals) : condLen g root = 1 := by
  simp [condLen, condLenAux, h]

theorem condLen_meta (g : Graph) (root : Nat) (cs : List Nat)
    (h : node g root = CondNode.and cs ∨ node g root = CondNode.or cs) :
    condLen g root = (iterConditions g root).length := by
  rcases h with h | h <;> simp [condLen, condLenAux, h]

/-- Pointwise-equal predicates give equal `all` verdicts. -/
theorem all_congr_of_eq {α : Type} (l : List α) (f h : α → Bool)
    (he : ∀ x ∈ l, f x = h x) : l.all f = l.all h := by
  induction l with
  | nil => rfl
  | cons a t ih =>
    simp only [List.all_cons, he a (List.mem_cons_self a t)]
    rw [ih (fun x hx => he x (List.mem_cons_of_mem a hx))]

/-- Zipping a list with itself pairs each element with itself. -/
theorem mem_zip_self {α : Type} :
    ∀ (l : List α) (p : α × α), p ∈ l.zip l → p.1 = p.2 := by
  intro l
  induction l with
  | nil => intro p hp; cases hp
  | cons a t ih =>
    intro p hp
    rw [List.zip_cons_cons] at hp
    rcases List.mem_cons.mp hp with h | h
    · rw [h]
    · exact ih p h

/-- Modelled from the spec (§4.1 traversal): structural equality of two
conditions in the arena, made cycle-aware by assuming equality for any
pair of nodes already under comparison higher up the path (bounded
bisimulation).  Leaves compare their operation, column reference and
operand values; `And`/`Or` compare child lists pointwise; `Not`
compares the single children.  The fuel `g.length * g.length + 1`
always suffices because the comparison path visits pairwise-distinct
pairs of in-arena indices. -/
def condEqAux (g : Graph) : Nat → List (Nat × Nat) → Nat → Nat → Bool
  | 0, _, _, _ => false
  | fuel + 1, seen, i, j =>
    if (i, j) ∈ seen then true
    else
      match node g i, node g j with
      | .empty, .empty => true
      | .leaf op1 c1 p1 v1, .leaf op2 c2 p2 v2 =>
          decide (op1 = op2 ∧ c1 = c2 ∧ p1 = p2 ∧ v1 = v2)
      | .and cs, .and ds =>
          decide (cs.length = ds.length) &&
            (cs.zip ds).all (fun p => condEqAux g fuel ((i, j) :: seen) p.1 p.2)
      | .or cs, .or ds =>
          decide (cs.length = ds.length) &&
            (cs.zip ds).all (fun p => condEqAux g fuel ((i, j) :: seen) p.1 p.2)
      | .not c, .not d => condEqAux g fuel ((i, j) :: seen) c d
      | _, _ => false

/-- Equality of the conditions rooted at `i` and `j`. -/
def condEq (g : Graph) (i j : Nat) : Bool :=
  condEqAux g (g.length * g.length + 1) [] i j

theorem condEqAux_succ (g : Graph) (f : Nat) (seen : List (Nat × Nat)) (i j : Nat) :
    condEqAux g (f + 1) seen i j =
      if (i, j) ∈ seen then true
      else
        match node g i, node g j with
        | .empty, .empty => true
        | .leaf op1 c1 p1 v1, .leaf op2 c2 p2 v2 =>
            decide (op1 = op2 ∧ c1 = c2 ∧ p1 = p2 ∧ v1 = v2)
        | .and cs, .and ds =>
            decide (cs.length = ds.length) &&
              (cs.zip ds).all (fun (p : Nat × Nat) => condEqAux g f ((i, j) :: seen) p.1 p.2)
        | .or cs, .or ds =>
            decide (cs.length = ds.length) &&
              (cs.zip ds).all (fun (p : Nat × Nat) => condEqAux g f ((i, j) :: seen) p.1 p.2)
        | .not c, .not d => condEqAux g f ((i, j) :: seen) c d
        | _, _ => false := rfl

/-- A duplicate-free list of pairs of indices below `L` has at most
`L * L` entries. -/
theorem nodup_bounded_length_pairs (L : Nat) (seen : List (Nat × Nat))
    (hnd : seen.Nodup) (hlt : ∀ p ∈ seen, p.1 < L ∧ p.2 < L) :
    seen.length ≤ L * L := by
  have h1 : seen.toFinset ⊆ Finset.range L ×ˢ Finset.range L := by
    intro p hp
    obtain ⟨ha, hb⟩ := hlt p (List.mem_toFinset.mp hp)
    exact Finset.mem_product.mpr ⟨Finset.mem_range.mpr ha, Finset.mem_range.mpr hb⟩
  have h2 := Finset.card_le_card h1
  rw [List.card_toFinset, hnd.dedup, Finset.card_product, Finset.card_range] at h2
  exact h2

/-- The equality computation is fuel-insensitive once the fuel covers
the remaining pair budget: every recursive step pushes a distinct pair
of in-range indices onto `seen`, so the comparison converges instead of
being cut off by the bound. -/
theorem condEqAux_fuel (g : Graph) :
    ∀ f1 f2 seen i j, seen.Nodup →
      (∀ p ∈ seen, p.1 < g.length ∧ p.2 < g.length) →
      g.length * g.length + 1 ≤ f1 + seen.length →
      g.length * g.length + 1 ≤ f2 + seen.length →
      condEqAux g f1 seen i j = condEqAux g f2 seen i j := by
  intro f1
  induction f1 with
  | zero =>
    intro f2 seen i j hnd hlt h1 _
    have := nodup_bounded_length_pairs g.length seen hnd hlt
    omega
  | succ a ih =>
    intro f2 seen i j hnd hlt h1 h2
    cases f2 with
    | zero =>
      have := nodup_bounded_length_pairs g.length seen hnd hlt
      omega
    | succ b =>
      by_cases hmem : (i, j) ∈ seen
      · simp [condEqAux, hmem]
      · have hstep : ∀ c d, i < g.length → j < g.length →
            condEqAux g a ((i, j) :: seen) c d =
              condEqAux g b ((i, j) :: seen) c d := by
          intro c d hi hj
          exact ih b ((i, j) :: seen) c d (List.nodup_cons.mpr ⟨hmem, hnd⟩)
            (by
              intro q hq
              rcases List.mem_cons.mp hq with h | h
              · exact h ▸ ⟨hi, hj⟩
              · exact hlt q h)
            (by simp only [List.length_cons]; omega)
            (by simp only [List.length_cons]; omega)
        rw [condEqAux_succ, condEqAux_succ, if_neg hmem, if_neg hmem]
        cases hni : node g i <;> cases hnj : node g j <;> try rfl
        · have hi : i < g.length :=
            node_lt_length g i (by rw [hni]; exact fun h => CondNode.noConfusion h)
          have hj : j < g.length :=
            node_lt_length g j (by rw [hnj]; exact fun h => CondNode.noConfusion h)
          rename_i cs ds
          show (decide (cs.length = ds.length) &&
              (cs.zip ds).all (fun p => condEqAux g a ((i, j) :: seen) p.1 p.2)) =
            (decide (cs.length = ds.length) &&
              (cs.zip ds).all (fun p => condEqAux g b ((i, j) :: seen) p.1 p.2))
          congr 1
          exact all_congr_of_eq _ _ _ (fun (p : Nat × Nat) _ => hstep p.1 p.2 hi hj)
        · have hi : i < g.length :=
            node_lt_length g i (by rw [hni]; exact fun h => CondNode.noConfusion h)
          have hj : j < g.length :=
            node_lt_length g j (by rw [hnj]; exact fun h => CondNode.noConfusion h)
          rename_i cs ds
          show (decide (cs.length = ds.length) &&
              (cs.zip ds).all (fun p => condEqAux g a ((i, j) :: seen) p.1 p.2)) =
            (decide (cs.length = ds.length) &&
              (cs.zip ds).all (fun p => condEqAux g b ((i, j) :: seen) p.1 p.2))
          congr 1
          exact all_congr_of_eq _ _ _ (fun (p : Nat × Nat) _ => hstep p.1 p.2 hi hj)
        · have hi : i < g.length :=
            node_lt_length g i (by rw [hni]; exact fun h => CondNode.noConfusion h)
          have hj : j < g.length :=
            node_lt_length g j (by rw [hnj]; exact fun h => CondNode.noConfusion h)
          exact hstep _ _ hi hj

/-- Every condition equals itself, cyclic graphs included. -/
theorem condEqAux_refl (g : Graph) :
    ∀ f seen, seen.Nodup →
      (∀ p ∈ seen, p.1 < g.length ∧ p.2 < g.length) →
      g.length * g.length + 1 ≤ f + seen.length →
      ∀ i, condEqAux g f seen i i = true := by
  intro f
  induction f with
  | zero =>
    intro seen hnd hlt h1 i
    have := nodup_bounded_length_pairs g.length seen hnd hlt
    omega
  | succ a ih =>
    intro seen hnd hlt h1 i
    by_cases hmem : (i, i) ∈ seen
    · simp [condEqAux, hmem]
    · have hstep : ∀ c, i < g.length →
          condEqAux g a ((i, i) :: seen) c c = true := by
        intro c hi
        exact ih ((i, i) :: seen) (List.nodup_cons.mpr ⟨hmem, hnd⟩)
          (by
            intro q hq
            rcases List.mem_cons.mp hq with h | h
            · exact h ▸ ⟨hi, hi⟩
            · exact hlt q h)
          (by simp only [List.length_cons]; omega) c
      rw [condEqAux_succ, if_neg hmem]
      cases hni : node g i with
      | empty => rfl
      | leaf op col path vals => simp
      | and cs =>
        have hi : i < g.length :=
          node_lt_length g i (by rw [hni]; exact fun h => CondNode.noConfusion h)
        rw [Bool.and_eq_true]
        refine ⟨by simp, ?_⟩
        rw [List.all_eq_true]
        intro p hp
        have hpe := mem_zip_self cs p hp
        rw [← hpe]
        exact hstep p.1 hi
      | or cs =>
        have hi : i < g.length :=
          node_lt_length g i (by rw [hni]; exact fun h => CondNode.noConfusion h)
        rw [Bool.and_eq_true]
        refine ⟨by simp, ?_⟩
        rw [List.all_eq_true]
        intro p hp
        have hpe := mem_zip_self cs p hp
        rw [← hpe]
        exact hstep p.1 hi
      | not c =>
        have hi : i < g.length :=
          node_lt_length g i (by rw [hni]; exact fun h => CondNode.noConfusion h)
        exact hstep c hi

/-- The cyclic condition of the unit suite: the root `And` holds a leaf
and an `Or` whose second child points back to the root. -/
def cyclicGraph : Graph :=
  [CondNode.and [1, 2], CondNode.leaf "a" 0 [] [],
   CondNode.or [3, 0], CondNode.leaf "c" 1 [] []]

/-- C4: for every condition graph, cyclic ones included, the
traversal-based operations terminate with correct results.  The
cycle-aware iteration reports each inner condition exactly once (no
duplicates, membership is exactly strict reachability along child-list
edges).  The length laws hold on every node: an empty condition has
length 0, a leaf has length 1, a `Not` has its child's length, and an
`And`/`Or` has the (finite) number of strictly reachable inner
conditions.  The cycle-aware equality comparison converges: any fuel
beyond the pair budget gives the same verdict as the bounded
comparison, and every condition compares equal to itself. -/
theorem c4_cyclic_traversal (g : Graph) (root : Nat) :
    (iterConditions g root).Nodup ∧
    (∀ i, i ∈ iterConditions g root ↔ Relation.TransGen (edgeRel g) root i) ∧
    (node g root = CondNode.empty → condLen g root = 0) ∧
    (∀ op col path vals, node g root = CondNode.leaf op col path vals →
      condLen g root = 1) ∧
    (∀ c, node g root = CondNode.not c → condLen g root = condLen g c) ∧
    (∀ cs, node g root = CondNode.and cs ∨ node g root = CondNode.or cs →
      condLen g root = Set.ncard {i | Relation.TransGen (edgeRel g) root i}) ∧
    (∀ j f, g.length * g.length + 1 ≤ f →
      condEqAux g f [] root j = condEq g root j) ∧
    condEq g root root = true := by
  refine ⟨Finset.sort_nodup _ _, mem_iterConditions_iff g root,
    condLen_empty g root, fun op col path vals => condLen_leaf g root op col path vals,
    fun c => condLen_not g root c, ?_, ?_, ?_⟩
  · intro cs h
    rw [condLen_meta g root cs h]
    unfold iterConditions
    rw [Finset.length_sort, ← Set.ncard_coe_Finset]
    congr 1
    ext i
    simp [mem_strictReach_iff]
  · intro j f hf
    unfold condEq
    exact condEqAux_fuel g f (g.length * g.length + 1) [] root j List.nodup_nil
      (by intro p hp; cases hp) (by simpa using hf) (by simp)
  · exact condEqAux_refl g (g.length * g.length + 1) [] List.nodup_nil
      (by intro p hp; cases hp) (by simp) root

/-- Closed instance of the traversal laws at the suite's cyclic
condition: the comparison of the cyclic root with itself converges
(spare fuel does not change the verdict) and returns `true`. -/
theorem c4_cyclic_traversal_witness :
    condEqAux cyclicGraph 20 [] 0 0 = condEq cyclicGraph 0 0 ∧
    condEq cyclicGraph 0 0 = true := by
  have h := c4_cyclic_traversal cyclicGraph 0
  exact ⟨h.2.2.2.2.2.2.1 0 20 (by decide), h.2.2.2.2.2.2.2⟩

/-- C4 counterexample to the claimed length formula: under the length
laws the spec pins (`Not` is length-transparent and the empty condition
has length 0), the condition `Not(Empty)` has length 0 while its
traversal visits one child-list slot, so the length does not equal the
number of reachable child-list edges counted per occurrence. -/
theorem c4_len_counterexample :
    condLen [CondNode.not 1, CondNode.empty] 0 = 0 ∧
    reachEdgeCount [CondNode.not 1, CondNode.empty] 0 = 1 ∧
    condLen [CondNode.not 1, CondNode.empty] 0 ≠
      reachEdgeCount [CondNode.not 1, CondNode.empty] 0 := by
  refine ⟨by decide, by decide, by decide⟩

/-! ## Condition algebra: negation and in-place combination

Modelled from the spec (§4.1/§4.2).  Operations allocate in the arena;
object identity is index identity.  `invert` implements `~`:
negating an empty condition returns the same condition, negating a
`Not` unwraps its child, anything else is wrapped in a fresh `Not`
node. -/

/-- Modelled from the spec (§4.1 negation). -/
def invert (g : Graph) (i : Nat) : Graph × Nat :=
  if isEmpty g i then (g, i)
  else
    match node g i with
    | .not c => (g, c)
    | _ => (g ++ [.not i], g.length)

/-- Children contributed by the right operand of a combination: a
matching meta node is flattened, anything else is a single child. -/
def andOperand (g : Graph) (r : Nat) : List Nat :=
  match node g r with
  | .and cs => cs
  | _ => [r]

def orOperand (g : Graph) (r : Nat) : List Nat :=
  match node g r with
  | .or cs => cs
  | _ => [r]

/-- Modelled from the spec (§4.2 in-place combination, `&=`): empty
operands simplify without allocation; a left operand that is already an
`And` has the right operand's children appended to its child list in
place; otherwise a fresh `And` node is allocated. -/
def iand (g : Graph) (l r : Nat) : Graph × Nat :=
  if isEmpty g r then (g, l)
  else if isEmpty g l then (g, r)
  else
    match node g l with
    | .and cs => (g.set l (.and (cs ++ andOperand g r)), l)
    | _ => (g ++ [.and ([l] ++ andOperand g r)], g.length)

/-- Modelled from the spec (§4.2 in-place combination, `|=`). -/
def ior (g : Graph) (l r : Nat) : Graph × Nat :=
  if isEmpty g r then (g, l)
  else if isEmpty g l then (g, r)
  else
    match node g l with
    | .or cs => (g.set l (.or (cs ++ orOperand g r)), l)
    | _ => (g ++ [.or ([l] ++ orOperand g r)], g.length)

theorem node_append_self (g : Graph) (n : CondNode) :
    node (g ++ [n]) g.length = n := by
  unfold node
  rw [List.getD_eq_getElem _ _ (by simp)]
  simp

theorem node_append_of_lt (g : Graph) (n : CondNode) (i : Nat) (h : i < g.length) :
    node (g ++ [n]) i = node g i := by
  unfold node
  rw [List.getD_eq_getElem _ _ (by simp; omega), List.getD_eq_getElem _ _ h]
  exact List.getElem_append_left h

theorem node_set_ne (g : Graph) (n : CondNode) (l r : Nat) (h : l ≠ r) :
    node (g.set l n) r = node g r := by
  unfold node
  rw [List.getD_eq_getElem?_getD, List.getD_eq_getElem?_getD, List.getElem?_set_ne h]

/-- The graph on which the stated negation law fails: node 0 is
`Not` wrapping the empty condition at node 1. -/
def notEmptyGraph : Graph := [CondNode.not 1, CondNode.empty]

/-- C6 counterexample: `x = Not(Empty)` is a non-empty condition (a
`Not` node is never empty), yet `~x` is the empty child — so "`~x` is
empty iff `x` is empty" fails — and `~(~x)` is the empty condition, not
`x`, so the involution fails as well. -/
theorem c6_invert_counterexample :
    isEmpty notEmptyGraph 0 = false ∧
    isEmpty (invert notEmptyGraph 0).1 (invert notEmptyGraph 0).2 = true ∧
    (invert (invert notEmptyGraph 0).1 (invert notEmptyGraph 0).2).2 ≠ 0 ∧
    node (invert (invert notEmptyGraph 0).1 (invert notEmptyGraph 0).2).1
        (invert (invert notEmptyGraph 0).1 (invert notEmptyGraph 0).2).2 ≠
      node notEmptyGraph 0 := by
  decide

/-- C6 (amended): negating an empty condition returns the very same
condition; negating a `Not` node returns its single child directly; and
for every condition that is not itself a `Not` node, negation preserves
emptiness exactly and double negation returns the original condition
(same index, so the same object). -/
theorem c6_invert_involution (g : Graph) (i : Nat) :
    (isEmpty g i = true → invert g i = (g, i)) ∧
    (∀ c, node g i = CondNode.not c → invert g i = (g, c)) ∧
    ((∀ c, node g i ≠ CondNode.not c) →
      isEmpty (invert g i).1 (invert g i).2 = isEmpty g i) ∧
    (isEmpty g i = false → (∀ c, node g i ≠ CondNode.not c) →
      invert (invert g i).1 (invert g i).2 = ((invert g i).1, i)) := by
  refine ⟨?_, ?_, ?_, ?_⟩
  · intro h
    simp [invert, h]
  · intro c hc
    have hne : isEmpty g i = false := by
      simp [isEmpty, hc, isEmptyNode]
    simp [invert, hne, hc]
  · intro hnot
    cases hemp : isEmpty g i with
    | true => simp [invert, hemp]
    | false =>
      have hstep : invert g i = (g ++ [CondNode.not i], g.length) := by
        unfold invert
        rw [if_neg (by simp [hemp])]
        cases hn : node g i with
        | not c => exact absurd hn (hnot c)
        | empty => rfl
        | leaf op col path vals => rfl
        | and cs => rfl
        | or cs => rfl
      rw [hstep]
      simp [isEmpty, node_append_self, isEmptyNode, hemp]
  · intro hemp hnot
    have hstep : invert g i = (g ++ [CondNode.not i], g.length) := by
      unfold invert
      rw [if_neg (by simp [hemp])]
      cases hn : node g i with
      | not c => exact absurd hn (hnot c)
      | empty => rfl
      | leaf op col path vals => rfl
      | and cs => rfl
      | or cs => rfl
    rw [hstep]
    have hnode : node (g ++ [CondNode.not i]) g.length = CondNode.not i :=
      node_append_self g _
    have hne : isEmpty (g ++ [CondNode.not i]) g.length = false := by
      simp [isEmpty, hnode, isEmptyNode]
    simp [invert, hne, hnode]

/-- Closed instance of the amended negation law at a concrete non-`Not`
condition: a comparison leaf wrapped and unwrapped by double negation. -/
theorem c6_invert_involution_witness :
    invert (invert [CondNode.leaf "<" 0 [] [3]] 0).1
        (invert [CondNode.leaf "<" 0 [] [3]] 0).2 =
      ((invert [CondNode.leaf "<" 0 [] [3]] 0).1, 0) :=
  (c6_invert_involution [CondNode.leaf "<" 0 [] [3]] 0).2.2.2 (by decide)
    (by intro c h; simp [node, List.getD] at h)

/-- A write-back of a node's current value leaves the arena unchanged. -/
theorem set_node_self (g : Graph) (l : Nat) (n : CondNode) (h : node g l = n)
    (hl : l < g.length) : g.set l n = g := by
  apply List.ext_getElem?
  intro i
  by_cases hi : i = l
  · subst hi
    rw [List.getElem?_set_self hl]
    unfold node at h
    rw [List.getD_eq_getElem _ _ hl] at h
    rw [← h, List.getElem?_eq_getElem hl]
  · rw [List.getElem?_set_ne (fun hc => hi hc.symm)]

/-- The graph on which the stated in-place frame law fails: combining
an `And` condition with itself in place. -/
def selfAndGraph : Graph := [CondNode.and [1, 1], CondNode.leaf "<" 0 [] [3]]

/-- The graph on which the left side of the stated law fails for an
empty left operand: node 0 is a childless (hence empty) `And`, node 1 a
two-child `And` over comparison leaves. -/
def emptyAndGraph : Graph :=
  [CondNode.and [], CondNode.and [2, 3],
   CondNode.leaf "<" 0 [] [1], CondNode.leaf ">" 0 [] [1]]

/-- C10 counterexample, both failure modes: `left &= right` with `left`
and `right` the very same `And` object doubles the shared child list,
so the right operand's child list does not stay as it was; and with a
distinct but *empty* left `And`, the combination rebinds to the right
operand (the result is the right object, nothing is appended to the
left's child list), so the left operand's identity is not preserved. -/
theorem c10_inplace_counterexample :
    (node (iand selfAndGraph 0 0).1 0 = CondNode.and [1, 1, 1, 1] ∧
      node (iand selfAndGraph 0 0).1 0 ≠ node selfAndGraph 0) ∧
    ((iand emptyAndGraph 0 1).2 = 1 ∧ (iand emptyAndGraph 0 1).2 ≠ 0 ∧
      node (iand emptyAndGraph 0 1).1 0 = CondNode.and []) := by
  decide

/-- C10 (amended): for every pair of *distinct* `And` (resp. `Or`)
condition objects whose left operand is non-empty, in-place combination
keeps the left operand's identity (the result is the left index and the
graph differs only at that slot, where the right operand's children are
appended), and the right operand's own child list is untouched.  An
empty right operand is covered: appending its zero children changes
nothing. -/
theorem c10_inplace_frame (g : Graph) (l r : Nat) (csl csr : List Nat)
    (hne : l ≠ r) :
    (node g l = CondNode.and csl → node g r = CondNode.and csr →
      csl ≠ [] →
      iand g l r = (g.set l (CondNode.and (csl ++ csr)), l) ∧
      node (iand g l r).1 r = CondNode.and csr) ∧
    (node g l = CondNode.or csl → node g r = CondNode.or csr →
      csl ≠ [] →
      ior g l r = (g.set l (CondNode.or (csl ++ csr)), l) ∧
      node (ior g l r).1 r = CondNode.or csr) := by
  constructor
  · intro hl hr hcsl
    have hll : l < g.length :=
      node_lt_length g l (by rw [hl]; exact fun h => CondNode.noConfusion h)
    have hel : isEmpty g l = false := by
      cases csl with
      | nil => exact absurd rfl hcsl
      | cons a t => simp [isEmpty, hl, isEmptyNode]
    cases csr with
    | nil =>
      have her : isEmpty g r = true := by simp [isEmpty, hr, isEmptyNode]
      have hres : iand g l r = (g, l) := by simp [iand, her]
      have hset : g.set l (CondNode.and (csl ++ [])) = g := by
        rw [List.append_nil]
        exact set_node_self g l _ hl hll
      rw [hres, hset]
      exact ⟨rfl, hr⟩
    | cons a t =>
      have her : isEmpty g r = false := by simp [isEmpty, hr, isEmptyNode]
      have heq : iand g l r = (g.set l (CondNode.and (csl ++ a :: t)), l) := by
        simp [iand, hel, her, hl, andOperand, hr]
      refine ⟨heq, ?_⟩
      rw [heq]
      simpa [node_set_ne g _ l r hne] using hr
  · intro hl hr hcsl
    have hll : l < g.length :=
      node_lt_length g l (by rw [hl]; exact fun h => CondNode.noConfusion h)
    have hel : isEmpty g l = false := by
      cases csl with
      | nil => exact absurd rfl hcsl
      | cons a t => simp [isEmpty, hl, isEmptyNode]
    cases csr with
    | nil =>
      have her : isEmpty g r = true := by simp [isEmpty, hr, isEmptyNode]
      have hres : ior g l r = (g, l) := by simp [ior, her]
      have hset : g.set l (CondNode.or (csl ++ [])) = g := by
        rw [List.append_nil]
        exact set_node_self g l _ hl hll
      rw [hres, hset]
      exact ⟨rfl, hr⟩
    | cons a t =>
      have her : isEmpty g r = false := by simp [isEmpty, hr, isEmptyNode]
      have heq : ior g l r = (g.set l (CondNode.or (csl ++ a :: t)), l) := by
        simp [ior, hel, her, hl, orOperand, hr]
      refine ⟨heq, ?_⟩
      rw [heq]
      simpa [node_set_ne g _ l r hne] using hr

/-- Closed instance of the amended in-place frame law, at the
structure of the unit test: two two-child `And` nodes over comparison
leaves, combined in place. -/
theorem c10_inplace_frame_witness :
    iand [CondNode.and [2, 3], CondNode.and [4, 5],
        CondNode.leaf "<" 0 [] [1], CondNode.leaf ">" 0 [] [1],
        CondNode.leaf "<" 1 [] [2], CondNode.leaf ">" 1 [] [2]] 0 1 =
      ([CondNode.and [2, 3, 4, 5], CondNode.and [4, 5],
        CondNode.leaf "<" 0 [] [1], CondNode.leaf ">" 0 [] [1],
        CondNode.leaf "<" 1 [] [2], CondNode.leaf ">" 1 [] [2]], 0) := by
  have h := (c10_inplace_frame
    [CondNode.and [2, 3], CondNode.and [4, 5],
     CondNode.leaf "<" 0 [] [1], CondNode.leaf ">" 0 [] [1],
     CondNode.leaf "<" 1 [] [2], CondNode.leaf ">" 1 [] [2]] 0 1 [2, 3] [4, 5]
    (by decide)).1 (by decide) (by decide) (by decide)
  exact h.1

/-! ## Renderer / compiler

Modelled from the spec (§3 render context, §4.1 rendering, §4.2
renderer): `bloop/condition.py` / `bloop/conditions.py` are not in the
source snapshot.  One render context per compiled request holds a name
placeholder cache keyed by `(column identity, path)` and a single
monotonically increasing counter shared between name and value
placeholders.  Values are assumed already marshalled (represented as
opaque numbers). -/

/-- Association-list lookup returning the first value bound to a key. -/
def alookup {α β : Type} [DecidableEq α] (k : α) : List (α × β) → Option β
  | [] => none
  | (k', v) :: t => if k' = k then some v else alookup k t

/-- A column reference as the render context caches it: column identity
plus attribute path. -/
abbrev ColRef := Nat × List PathSeg

/-- Modelled from the spec (§3): per-render-pass state.  `nextIndex` is
the shared counter minting placeholder indices for names and values
alike; `names` caches minted name placeholders by column reference;
`values` records every minted value placeholder with its marshalled
value. -/
structure RenderContext where
  nextIndex : Nat
  names : List (ColRef × Nat)
  values : List (Nat × Nat)
deriving DecidableEq, Repr

/-- Modelled from the spec (§4.2): requesting a name placeholder for a
column reference returns the cached placeholder when one exists and
otherwise mints the next index from the shared counter. -/
def name_ref (ctx : RenderContext) (col : ColRef) : RenderContext × Nat :=
  match alookup col ctx.names with
  | some i => (ctx, i)
  | none =>
    ({ nextIndex := ctx.nextIndex + 1,
       names := (col, ctx.nextIndex) :: ctx.names,
       values := ctx.values }, ctx.nextIndex)

/-- Modelled from the spec (§4.2): value placeholders are never
deduplicated; every request mints a fresh index from the shared
counter. -/
def value_ref (ctx : RenderContext) (v : Nat) : RenderContext × Nat :=
  ({ nextIndex := ctx.nextIndex + 1,
     names := ctx.names,
     values := (ctx.nextIndex, v) :: ctx.values }, ctx.nextIndex)

/-- Mint value placeholders for a list of operand values in order. -/
def valueRefs (ctx : RenderContext) : List Nat → RenderContext × List Nat
  | [] => (ctx, [])
  | v :: t =>
    let p := value_ref ctx v
    let q := valueRefs p.1 t
    (q.1, p.2 :: q.2)

/-- Wire symbol of a comparison operator tag. -/
def cmpSymbol : String → Option String
  | "==" => some "="
  | "!=" => some "<>"
  | "<" => some "<"
  | "<=" => some "<="
  | ">" => some ">"
  | ">=" => some ">="
  | _ => none

/-- Join rendered children: a single child renders as itself, several
children are joined by the operator and wrapped once in parentheses. -/
def joinParts (sep : String) : List String → String
  | [s] => s
  | parts => "(" ++ String.intercalate sep parts ++ ")"

def nameText (n : Nat) : String := "#n" ++ toString n

def valueText (n : Nat) : String := ":v" ++ toString n

inductive RenderErr
  | invalidCondition
  | cyclicCondition
deriving DecidableEq, Repr

mutual

/-- Modelled from the spec (§4.1 rendering): dispatch on the operation
tag; comparisons render as `(<name> <op> <value>)`,
`begins_with`/`contains` as function calls, `between` and `in` with
their keywords, `and`/`or` join their children, `not` wraps its child.
Rendering an empty node is a usage error.  Fuel bounds the recursion
depth (a cyclic condition exhausts it). -/
def renderNode (g : Graph) : Nat → RenderContext → Nat →
    Except RenderErr (RenderContext × String)
  | 0, _, _ => .error .cyclicCondition
  | fuel + 1, ctx, i =>
    match node g i with
    | .empty => .error .invalidCondition
    | .leaf op column path vals =>
      let p := name_ref ctx (column, path)
      let nref := nameText p.2
      match op, vals with
      | "begins_with", [v] =>
        let q := value_ref p.1 v
        .ok (q.1, "begins_with(" ++ nref ++ ", " ++ valueText q.2 ++ ")")
      | "contains", [v] =>
        let q := value_ref p.1 v
        .ok (q.1, "contains(" ++ nref ++ ", " ++ valueText q.2 ++ ")")
      | "between", [lo, hi] =>
        let q := value_ref p.1 lo
        let r := value_ref q.1 hi
        .ok (r.1, "(" ++ nref ++ " BETWEEN " ++ valueText q.2 ++ " AND " ++
          valueText r.2 ++ ")")
      | "in", vs =>
        let q := valueRefs p.1 vs
        .ok (q.1, "(" ++ nref ++ " IN (" ++
          String.intercalate ", " (q.2.map valueText) ++ "))")
      | cop, [v] =>
        match cmpSymbol cop with
        | some sym =>
          let q := value_ref p.1 v
          .ok (q.1, "(" ++ nref ++ " " ++ sym ++ " " ++ valueText q.2 ++ ")")
        | none => .error .invalidCondition
      | _, _ => .error .invalidCondition
    | .and cs =>
      match cs with
      | [] => .error .invalidCondition
      | _ => do
        let r ← renderList g fuel ctx cs
        pure (r.1, joinParts " AND " r.2)
    | .or cs =>
      match cs with
      | [] => .error .invalidCondition
      | _ => do
        let r ← renderList g fuel ctx cs
        pure (r.1, joinParts " OR " r.2)
    | .not c => do
      let r ← renderNode g fuel ctx c
      pure (r.1, "(NOT " ++ r.2 ++ ")")

/-- Render a child list left to right, threading the render context. -/
def renderList (g : Graph) : Nat → RenderContext → List Nat →
    Except RenderErr (RenderContext × List String)
  | _, ctx, [] => .ok (ctx, [])
  | fuel, ctx, i :: t => do
    let r ← renderNode g fuel ctx i
    let s ← renderList g fuel r.1 t
    pure (s.1, r.2 :: s.2)

end

/-- Rendering modes of the compiler (§4.2): write-time preconditions,
post-key filtering, and the key condition expression. -/
inductive RMode
  | condition
  | filter
  | key
deriving DecidableEq, Repr

/-- Modelled from the spec (§4.1/§7): compiling a condition in one of
the protocol-facing modes; rendering the fully empty condition in the
`condition` or `filter` mode is a usage error reported before any
traversal. -/
def render (g : Graph) (i : Nat) (mode : RMode) (ctx : RenderContext) :
    Except RenderErr (RenderContext × String) :=
  if (mode = RMode.condition ∨ mode = RMode.filter) ∧ isEmpty g i then
    .error .invalidCondition
  else renderNode g (g.length + 1) ctx i

/-- C1: rendering the fully empty condition in either protocol-facing
mode (`condition` or `filter`) is a synchronous usage error; no
expression string is produced for any empty condition in those modes. -/
theorem c1_render_empty_raises (g : Graph) (i : Nat) (ctx : RenderContext)
    (h : isEmpty g i = true) :
    render g i RMode.condition ctx = .error .invalidCondition ∧
    render g i RMode.filter ctx = .error .invalidCondition := by
  constructor <;> simp [render, h]

/-- Closed instance of C1: rendering the literal empty condition (and a
childless `And`) errors in both modes. -/
theorem c1_render_empty_raises_witness :
    render [CondNode.empty] 0 RMode.condition ⟨0, [], []⟩ =
      .error .invalidCondition ∧
    render [CondNode.empty] 0 RMode.filter ⟨0, [], []⟩ =
      .error .invalidCondition :=
  c1_render_empty_raises [CondNode.empty] 0 ⟨0, [], []⟩ (by decide)

/-- C5: within one render pass, a second name-placeholder request for
the same column reference returns the placeholder minted first and
leaves the context unchanged; every value-placeholder request, equal
constants included, mints a fresh index; and both kinds of placeholder
draw from the one shared counter, which increases by exactly one per
minted placeholder. -/
theorem c5_render_context (ctx : RenderContext) (col : ColRef) (v : Nat) :
    name_ref (name_ref ctx col).1 col = name_ref ctx col ∧
    (value_ref ctx v).2 = ctx.nextIndex ∧
    (value_ref ctx v).1.nextIndex = ctx.nextIndex + 1 ∧
    (value_ref (value_ref ctx v).1 v).2 = ctx.nextIndex + 1 ∧
    (alookup col ctx.names = none →
      (name_ref ctx col).2 = ctx.nextIndex ∧
      (name_ref ctx col).1.nextIndex = ctx.nextIndex + 1) ∧
    (∀ j, alookup col ctx.names = some j → name_ref ctx col = (ctx, j)) := by
  refine ⟨?_, rfl, rfl, rfl, ?_, ?_⟩
  · cases h : alookup col ctx.names with
    | some j => simp [name_ref, h]
    | none => simp [name_ref, h, alookup]
  · intro h
    simp [name_ref, h]
  · intro j h
    simp [name_ref, h]

/-- Closed instance of C5 on a fresh render context: a name reference,
a duplicate name reference, and two value references for the same
constant mint the interleaved sequence `#n0, :v1, :v2` with the name
cached. -/
theorem c5_render_context_witness :
    name_ref (name_ref ⟨0, [], []⟩ (5, [])).1 (5, []) =
      name_ref ⟨0, [], []⟩ (5, []) ∧
    (value_ref ⟨0, [], []⟩ 9).2 = 0 ∧
    (value_ref ⟨0, [], []⟩ 9).1.nextIndex = 0 + 1 ∧
    (value_ref (value_ref ⟨0, [], []⟩ 9).1 9).2 = 0 + 1 ∧
    (alookup (5, ([] : List PathSeg)) ([] : List (ColRef × Nat)) = none →
      (name_ref ⟨0, [], []⟩ (5, [])).2 = 0 ∧
      (name_ref ⟨0, [], []⟩ (5, [])).1.nextIndex = 0 + 1) ∧
    (∀ j, alookup (5, ([] : List PathSeg)) ([] : List (ColRef × Nat)) = some j →
      name_ref ⟨0, [], []⟩ (5, []) = (⟨0, [], []⟩, j)) :=
  c5_render_context ⟨0, [], []⟩ (5, []) 9

/-! ## Search execution engine

Modelled from the spec (§3 search cursor, §4.3): `bloop/search.py` is
not in the source snapshot.  A cursor owns a FIFO buffer of decoded
items, cumulative counters, a limit (`0` meaning unbounded), an
exhausted flag tracking the absence of further continuation tokens,
and — standing in for the transport collaborator — the list of result
pages the service will still return; `calls` counts network calls
issued.  Items are opaque numbers. -/

/-- One page returned by the transport's `search_items`: counters, the
decoded items, and whether a continuation token was present. -/
structure Page where
  count : Nat
  scanned : Nat
  items : List Nat
  hasMore : Bool
deriving DecidableEq, Repr

/-- Modelled from the spec (§3): per-query-or-scan execution state. -/
structure Cursor where
  buffer : List Nat
  yielded : Nat
  count : Nat
  scanned : Nat
  limit : Nat
  exhausted_ : Bool
  pages : List Page
  calls : Nat
deriving DecidableEq, Repr

/-- Ingest one transport response (§4.3/§6): the page's decoded items
become the buffer, `count`/`scanned` accumulate, the continuation state
records whether a token was present, and one network call is counted. -/
def consume (p : Page) (c : Cursor) : Cursor :=
  { c with
    buffer := p.items
    count := c.count + p.count
    scanned := c.scanned + p.scanned
    exhausted_ := !p.hasMore
    calls := c.calls + 1 }

/-- The fetch loop of a step (§4.3): while the buffer is empty and
tokens remain, issue one network call, append the page's items, update
the counters and the continuation state. -/
def fillAux : List Page → Cursor → Cursor
  | [], c => { c with pages := [] }
  | p :: rest, c =>
    if c.buffer.isEmpty && !c.exhausted_ then fillAux rest (consume p c)
    else { c with pages := p :: rest }

def fill (c : Cursor) : Cursor := fillAux c.pages c

/-- Python truthiness of the limit: a zero limit means unbounded. -/
def limitReached (c : Cursor) : Bool :=
  c.limit != 0 && decide (c.limit ≤ c.yielded)

/-- Modelled from the spec (§4.3 exhaustion): exhausted iff the limit
has been reached, or the buffer is empty with no further continuation
tokens. -/
def exhausted (c : Cursor) : Bool :=
  limitReached c || (c.buffer.isEmpty && c.exhausted_)

/-- Modelled from the spec (§4.3 step): pop the next buffered item,
fetching pages (following continuation tokens across empty pages) when
the buffer runs dry; signal end-of-sequence without a network call once
exhausted or past the limit. -/
def next (c : Cursor) : Option Nat × Cursor :=
  if limitReached c then (none, c)
  else
    let c' := fill c
    match c'.buffer with
    | [] => (none, c')
    | x :: rest => (some x, { c' with buffer := rest, yielded := c'.yielded + 1 })

/-- Iterate the cursor `n` steps, recording each step's result. -/
def takeSteps : Nat → Cursor → List (Option Nat) × Cursor
  | 0, c => ([], c)
  | n + 1, c =>
    let p := next c
    let q := takeSteps n p.2
    (p.1 :: q.1, q.2)

inductive SearchErr
  | invalidSearch
  | constraintViolation
deriving DecidableEq, Repr

/-- Modelled from the spec (§4.3 `one()`): step exactly twice; the
first step must yield an item and the second must yield nothing,
anything else is a constraint violation. -/
def one (c : Cursor) : Except SearchErr Nat × Cursor :=
  let p := next c
  let q := next p.2
  match p.1, q.1 with
  | some v, none => (.ok v, q.2)
  | _, _ => (.error .constraintViolation, q.2)

/-- A cursor at the start of iteration over the given page chain, with
no limit configured. -/
def initCursor (chain : List Page) : Cursor :=
  { buffer := [], yielded := 0, count := 0, scanned := 0, limit := 0,
    exhausted_ := false, pages := chain, calls := 0 }

/-- A well-formed transport response chain: every page except the last
carries a continuation token, the last does not. -/
def wfChain : List Page → Bool
  | [] => false
  | [p] => !p.hasMore
  | p :: rest => p.hasMore && wfChain rest

def flatItems (chain : List Page) : List Nat := chain.flatMap Page.items

def pageCounts (chain : List Page) : List Nat := chain.map (fun p => p.items.length)

/-- Translated from `calls_for_current_steps` in the unit test suite:
the number of network calls required to advance the iterator by
`steps` steps over the given page-size chain. -/
def callsForSteps : List Nat → Nat → Nat
  | [], _ => 1
  | [_], _ => 1
  | p :: rest, steps => if steps ≤ p then 1 else 1 + callsForSteps rest (steps - p)

theorem callsForSteps_cons (a b : Nat) (t : List Nat) (n : Nat) :
    callsForSteps (a :: b :: t) n =
      if n ≤ a then 1 else 1 + callsForSteps (b :: t) (n - a) := rfl

theorem flatItems_cons (p : Page) (rest : List Page) :
    flatItems (p :: rest) = p.items ++ flatItems rest := rfl

theorem pageCounts_cons (p : Page) (rest : List Page) :
    pageCounts (p :: rest) = p.items.length :: pageCounts rest := rfl

theorem fill_cons (x : Nat) (bf : List Nat) (y cnt sc lim : Nat) (ex : Bool)
    (ps : List Page) (k : Nat) :
    fill ⟨x :: bf, y, cnt, sc, lim, ex, ps, k⟩ =
      ⟨x :: bf, y, cnt, sc, lim, ex, ps, k⟩ := by
  cases ps <;> simp [fill, fillAux]

theorem fill_exh (bf : List Nat) (y cnt sc lim : Nat) (k : Nat) :
    fill ⟨bf, y, cnt, sc, lim, true, [], k⟩ =
      ⟨bf, y, cnt, sc, lim, true, [], k⟩ := by
  simp [fill, fillAux]

theorem limitReached_zero (bf : List Nat) (y cnt sc : Nat) (ex : Bool)
    (ps : List Page) (k : Nat) :
    limitReached ⟨bf, y, cnt, sc, 0, ex, ps, k⟩ = false := rfl

theorem next_cons (x : Nat) (bf : List Nat) (y cnt sc : Nat) (ex : Bool)
    (ps : List Page) (k : Nat) :
    next ⟨x :: bf, y, cnt, sc, 0, ex, ps, k⟩ =
      (some x, ⟨bf, y + 1, cnt, sc, 0, ex, ps, k⟩) := by
  simp [next, limitReached_zero, fill_cons]

theorem next_exh (y cnt sc k : Nat) :
    next ⟨[], y, cnt, sc, 0, true, [], k⟩ =
      (none, ⟨[], y, cnt, sc, 0, true, [], k⟩) := by
  simp [next, limitReached_zero, fill_exh]

theorem takeSteps_succ (n : Nat) (c : Cursor) :
    takeSteps (n + 1) c =
      ((next c).1 :: (takeSteps n (next c).2).1, (takeSteps n (next c).2).2) := rfl

theorem takeSteps_add (a b : Nat) (c : Cursor) :
    takeSteps (a + b) c =
      ((takeSteps a c).1 ++ (takeSteps b (takeSteps a c).2).1,
       (takeSteps b (takeSteps a c).2).2) := by
  induction a generalizing c with
  | zero => simp [takeSteps]
  | succ a ih =>
    rw [Nat.succ_add, takeSteps_succ, takeSteps_succ, ih]
    simp

theorem next_congr (c c' : Cursor) (h1 : limitReached c = false)
    (h2 : limitReached c' = false) (h : fill c = fill c') : next c = next c' := by
  simp only [next, h1, h2, h, Bool.false_eq_true, if_false]

/-- Draining a cursor whose pages are exhausted: the buffered items
come out in order, then `none` forever, with no further network call. -/
theorem takeSteps_exhausted (n : Nat) (bf : List Nat) (y cnt sc k : Nat) :
    takeSteps n ⟨bf, y, cnt, sc, 0, true, [], k⟩ =
      ((bf.take n).map some ++ List.replicate (n - bf.length) none,
       ⟨bf.drop n, y + min n bf.length, cnt, sc, 0, true, [], k⟩) := by
  induction n generalizing bf y with
  | zero => simp [takeSteps]
  | succ n ih =>
    cases bf with
    | nil =>
      rw [takeSteps_succ, next_exh, ih]
      simp [List.replicate_succ]
    | cons x t =>
      rw [takeSteps_succ, next_cons, ih]
      simp [Nat.succ_min_succ, Nat.succ_sub_succ]
      omega

/-- Popping at most the buffered items touches neither the pages nor
the network. -/
theorem takeSteps_pop (n : Nat) (bf : List Nat) (y cnt sc : Nat) (ex : Bool)
    (ps : List Page) (k : Nat) (h : n ≤ bf.length) :
    takeSteps n ⟨bf, y, cnt, sc, 0, ex, ps, k⟩ =
      ((bf.take n).map some, ⟨bf.drop n, y + n, cnt, sc, 0, ex, ps, k⟩) := by
  induction n generalizing bf y with
  | zero => simp [takeSteps]
  | succ n ih =>
    cases bf with
    | nil => simp at h
    | cons x t =>
      rw [takeSteps_succ, next_cons, ih t (y + 1) (by simpa using h)]
      simp
      omega

/-- The fetch loop never reads the stale `pages` field of its
accumulator: it rewrites it at every exit. -/
theorem fillAux_pages (ps : List Page) :
    ∀ (bf : List Nat) (y cnt sc lim : Nat) (ex : Bool)
      (pgs pgs' : List Page) (k : Nat),
    fillAux ps ⟨bf, y, cnt, sc, lim, ex, pgs, k⟩ =
      fillAux ps ⟨bf, y, cnt, sc, lim, ex, pgs', k⟩ := by
  induction ps with
  | nil => intro bf y cnt sc lim ex pgs pgs' k; simp [fillAux]
  | cons p rest ih =>
    intro bf y cnt sc lim ex pgs pgs' k
    by_cases hg : (bf.isEmpty && !ex) = true
    · simp only [fillAux, hg, if_true, consume]
      exact ih p.items y (cnt + p.count) (sc + p.scanned) lim (!p.hasMore) pgs pgs' (k + 1)
    · simp [fillAux, hg]

/-- Consuming the first pending page commutes with the rest of the
fetch loop. -/
theorem fill_mid (p : Page) (rest : List Page) (y cnt sc k : Nat) :
    fill ⟨[], y, cnt, sc, 0, false, p :: rest, k⟩ =
      fill ⟨p.items, y, cnt + p.count, sc + p.scanned, 0, !p.hasMore, rest, k + 1⟩ := by
  show fillAux (p :: rest) _ = fillAux rest _
  simp only [fillAux, List.isEmpty_nil, Bool.not_false, Bool.and_self, if_true, consume]
  exact fillAux_pages rest p.items y (cnt + p.count) (sc + p.scanned) 0 (!p.hasMore)
    (p :: rest) rest (k + 1)

/-- Stepping past an empty non-final page is the same as stepping the
cursor positioned after it: the engine follows the continuation token. -/
theorem next_mid_nil (p : Page) (rest : List Page) (y cnt sc k : Nat)
    (hitems : p.items = []) (hmore : p.hasMore = true) :
    next ⟨[], y, cnt, sc, 0, false, p :: rest, k⟩ =
      next ⟨[], y, cnt + p.count, sc + p.scanned, 0, false, rest, k + 1⟩ := by
  apply next_congr _ _ (limitReached_zero _ _ _ _ _ _ _) (limitReached_zero _ _ _ _ _ _ _)
  have h := fill_mid p rest y cnt sc k
  rwa [hitems, hmore] at h

/-- Stepping onto a non-empty non-final page pops its first item after
one network call. -/
theorem next_mid_cons (p : Page) (rest : List Page) (y cnt sc k : Nat)
    (a : Nat) (as : List Nat) (hitems : p.items = a :: as) (hmore : p.hasMore = true) :
    next ⟨[], y, cnt, sc, 0, false, p :: rest, k⟩ =
      (some a, ⟨as, y + 1, cnt + p.count, sc + p.scanned, 0, false, rest, k + 1⟩) := by
  have h := fill_mid p rest y cnt sc k
  rw [hitems, hmore] at h
  rw [fill_cons] at h
  simp [next, limitReached_zero, h]

/-- Stepping onto the final page ends at an exhausted cursor holding
that page's items. -/
theorem fill_term (p : Page) (y cnt sc k : Nat) (hmore : p.hasMore = false) :
    fill ⟨[], y, cnt, sc, 0, false, [p], k⟩ =
      ⟨p.items, y, cnt + p.count, sc + p.scanned, 0, true, [], k + 1⟩ := by
  show fillAux [p] _ = _
  simp [fillAux, consume, hmore]

theorem fillAux_limit (ps : List Page) : ∀ c : Cursor, (fillAux ps c).limit = c.limit := by
  induction ps with
  | nil => intro c; rfl
  | cons p rest ih =>
    intro c
    by_cases hg : (c.buffer.isEmpty && !c.exhausted_) = true
    · simp only [fillAux, hg, if_true]
      rw [ih]
      rfl
    · simp [fillAux, hg]

theorem next_limit (c : Cursor) : (next c).2.limit = c.limit := by
  unfold next
  by_cases h : limitReached c = true
  · simp [h]
  · simp only [h, Bool.false_eq_true, if_false]
    have hfl : (fill c).limit = c.limit := fillAux_limit c.pages c
    cases hb : (fill c).buffer with
    | nil => simpa [hb] using hfl
    | cons x t => simpa [hb] using hfl

theorem takeSteps_limit (n : Nat) (c : Cursor) : (takeSteps n c).2.limit = c.limit := by
  induction n generalizing c with
  | zero => rfl
  | succ n ih => rw [takeSteps_succ]; rw [ih, next_limit]

/-- A cursor that is out of pages and tokens with an empty buffer is a
fixpoint of `next`: no item and no network call, forever. -/
theorem next_stuck (c : Cursor) (hl : c.limit = 0) (hb : c.buffer = [])
    (he : c.exhausted_ = true) (hp : c.pages = []) : next c = (none, c) := by
  obtain ⟨bf, y, cnt, sc, lim, ex, ps, k⟩ := c
  simp only at hl hb he hp
  subst hl hb he hp
  exact next_exh y cnt sc k

theorem wfChain_single (p : Page) : wfChain [p] = !p.hasMore := rfl

theorem wfChain_cons₂ (p q : Page) (rs : List Page) :
    wfChain (p :: q :: rs) = (p.hasMore && wfChain (q :: rs)) := rfl

theorem flatItems_single (p : Page) : flatItems [p] = p.items := by
  simp [flatItems]

theorem callsForSteps_single (x n : Nat) : callsForSteps [x] n = 1 := rfl

/-- Full characterization of iterating a well-formed page chain from a
between-pages state: the step outputs are the remaining items in order
followed by `none`s, the cumulative network calls match the test
oracle `callsForSteps`, and once the steps outnumber the items the
cursor is fully drained with no pages left. -/
theorem stepChain (ps : List Page) :
    wfChain ps = true → ∀ n k y cnt sc, 1 ≤ n →
      (takeSteps n ⟨[], y, cnt, sc, 0, false, ps, k⟩).1 =
          ((flatItems ps).take n).map some ++
            List.replicate (n - (flatItems ps).length) none ∧
      (takeSteps n ⟨[], y, cnt, sc, 0, false, ps, k⟩).2.calls =
          k + callsForSteps (pageCounts ps) n ∧
      ((flatItems ps).length < n →
        (takeSteps n ⟨[], y, cnt, sc, 0, false, ps, k⟩).2.buffer = [] ∧
        (takeSteps n ⟨[], y, cnt, sc, 0, false, ps, k⟩).2.exhausted_ = true ∧
        (takeSteps n ⟨[], y, cnt, sc, 0, false, ps, k⟩).2.pages = []) := by
  induction ps with
  | nil => intro hwf; simp [wfChain] at hwf
  | cons p rest ih =>
    intro hwf n k y cnt sc hn
    obtain ⟨m, rfl⟩ : ∃ m, n = m + 1 := ⟨n - 1, by omega⟩
    cases rest with
    | nil =>
      -- the terminal page: one call ingests it, then the buffer drains
      have hmore : p.hasMore = false := by
        rw [wfChain_single] at hwf
        simpa using hwf
      have hfc := fill_term p y cnt sc k hmore
      have hfe := fill_exh p.items y (cnt + p.count) (sc + p.scanned) 0 (k + 1)
      have hnx : next ⟨[], y, cnt, sc, 0, false, [p], k⟩ =
          next ⟨p.items, y, cnt + p.count, sc + p.scanned, 0, true, [], k + 1⟩ :=
        next_congr _ _ (limitReached_zero _ _ _ _ _ _ _)
          (limitReached_zero _ _ _ _ _ _ _) (by rw [hfc, hfe])
      have hts : takeSteps (m + 1) ⟨[], y, cnt, sc, 0, false, [p], k⟩ =
          takeSteps (m + 1) ⟨p.items, y, cnt + p.count, sc + p.scanned, 0, true, [], k + 1⟩ := by
        rw [takeSteps_succ, takeSteps_succ, hnx]
      rw [hts, takeSteps_exhausted, flatItems_single]
      refine ⟨rfl, ?_, ?_⟩
      · rw [pageCounts_cons]
        show k + 1 = k + callsForSteps [p.items.length] (m + 1)
        rw [callsForSteps_single]
      · intro hlen
        refine ⟨List.drop_eq_nil_of_le (by omega), rfl, rfl⟩
    | cons q rs =>
      have hmore : p.hasMore = true := by
        rw [wfChain_cons₂] at hwf
        exact (Bool.and_eq_true_iff.mp hwf).1
      have hwfr : wfChain (q :: rs) = true := by
        rw [wfChain_cons₂] at hwf
        exact (Bool.and_eq_true_iff.mp hwf).2
      cases hpi : p.items with
      | nil =>
        -- an empty page: the engine follows the token within the same step
        have hnx := next_mid_nil p (q :: rs) y cnt sc k hpi hmore
        have hts : takeSteps (m + 1) ⟨[], y, cnt, sc, 0, false, p :: q :: rs, k⟩ =
            takeSteps (m + 1)
              ⟨[], y, cnt + p.count, sc + p.scanned, 0, false, q :: rs, k + 1⟩ := by
          rw [takeSteps_succ, takeSteps_succ, hnx]
        obtain ⟨ih1, ih2, ih3⟩ :=
          ih hwfr (m + 1) (k + 1) y (cnt + p.count) (sc + p.scanned) (by omega)
        rw [hts, flatItems_cons, hpi, List.nil_append]
        refine ⟨ih1, ?_, ih3⟩
        have hcf : callsForSteps (pageCounts (p :: q :: rs)) (m + 1) =
            1 + callsForSteps (pageCounts (q :: rs)) (m + 1) := by
          rw [pageCounts_cons p (q :: rs), hpi, pageCounts_cons q rs,
            callsForSteps_cons, if_neg (by simp)]
          simp
        rw [ih2, hcf]
        omega
      | cons a as =>
        have hnx := next_mid_cons p (q :: rs) y cnt sc k a as hpi hmore
        rw [takeSteps_succ, hnx]
        by_cases hm : m ≤ as.length
        · -- the remaining steps stay within this page's buffer
          rw [takeSteps_pop m as (y + 1) (cnt + p.count) (sc + p.scanned) false
            (q :: rs) (k + 1) hm]
          refine ⟨?_, ?_, ?_⟩
          · show some a :: (as.take m).map some = _
            rw [flatItems_cons p (q :: rs), hpi, List.take_append_eq_append_take]
            have h0 : (m + 1) - (a :: as).length = 0 := by simp; omega
            rw [h0, List.take_zero, List.append_nil, List.take_succ_cons]
            have h2 : (m + 1) - ((a :: as) ++ flatItems (q :: rs)).length = 0 := by
              simp; omega
            rw [h2]
            simp
          · show k + 1 = k + callsForSteps (pageCounts (p :: q :: rs)) (m + 1)
            have hcf : callsForSteps (pageCounts (p :: q :: rs)) (m + 1) = 1 := by
              rw [pageCounts_cons p (q :: rs), hpi, pageCounts_cons q rs,
                callsForSteps_cons, if_pos (by simp; omega)]
            rw [hcf]
          · intro hlen
            rw [flatItems_cons, hpi] at hlen
            simp at hlen
            omega
        · -- the page's buffer drains and iteration continues on the rest
          obtain ⟨m2, hm2, hm21⟩ : ∃ m2, m = as.length + m2 ∧ 1 ≤ m2 :=
            ⟨m - as.length, by omega, by omega⟩
          subst hm2
          rw [takeSteps_add,
            takeSteps_pop as.length as (y + 1) (cnt + p.count) (sc + p.scanned)
              false (q :: rs) (k + 1) (Nat.le_refl _),
            List.take_length, List.drop_length]
          obtain ⟨j1, j2, j3⟩ :=
            ih hwfr m2 (k + 1) (y + 1 + as.length) (cnt + p.count) (sc + p.scanned) hm21
          refine ⟨?_, ?_, ?_⟩
          · show some a :: (as.map some ++ _) = _
            rw [j1, flatItems_cons p (q :: rs), hpi, List.take_append_eq_append_take]
            have h1 : (a :: as).take (as.length + m2 + 1) = a :: as :=
              List.take_of_length_le (by simp only [List.length_cons]; omega)
            have h2 : (as.length + m2 + 1) - (a :: as).length = m2 := by
              simp only [List.length_cons]
              omega
            rw [h1, h2]
            have h3 : (as.length + m2 + 1) - ((a :: as) ++ flatItems (q :: rs)).length =
                m2 - (flatItems (q :: rs)).length := by simp; omega
            rw [h3]
            simp
          · show (takeSteps m2 _).2.calls = _
            have hcf : callsForSteps (pageCounts (p :: q :: rs)) (as.length + m2 + 1) =
                1 + callsForSteps (pageCounts (q :: rs)) m2 := by
              rw [pageCounts_cons p (q :: rs), hpi, pageCounts_cons q rs,
                callsForSteps_cons, if_neg (by simp; omega)]
              have h4 : as.length + m2 + 1 - (a :: as).length = m2 := by simp
              rw [h4]
            rw [j2, hcf]
            omega
          · intro hlen
            apply j3
            rw [flatItems_cons, hpi] at hlen
            simp at hlen
            omega

theorem sum_pageCounts (ps : List Page) :
    (pageCounts ps).sum = (flatItems ps).length := by
  induction ps with
  | nil => rfl
  | cons p rest ih => simp [pageCounts_cons, flatItems_cons, ih]

theorem callsForSteps_exceeds (cs : List Nat) :
    ∀ n, cs ≠ [] → cs.sum < n → callsForSteps cs n = cs.length := by
  induction cs with
  | nil => intro n h _; exact absurd rfl h
  | cons a t ih =>
    intro n _ hsum
    cases t with
    | nil => rw [callsForSteps_single]; rfl
    | cons b ts =>
      rw [callsForSteps_cons, if_neg (by simp at hsum ⊢; omega)]
      rw [ih (n - a) (by simp) (by simp at hsum ⊢; omega)]
      simp
      omega

theorem limitReached_eq_false (c : Cursor) (h : c.limit = 0) :
    limitReached c = false := by
  simp [limitReached, h]

theorem initCursor_eq (chain : List Page) :
    initCursor chain = ⟨[], 0, 0, 0, 0, false, chain, 0⟩ := rfl

/-- C2: iterating a finite result chain to completion issues exactly
one network call per page (zero-item pages included), yields exactly
the items of all pages in order, and afterwards the cursor reports
exhausted and any further iteration attempt returns nothing with zero
additional network calls. -/
theorem c2_pagination (chain : List Page) (hwf : wfChain chain = true) :
    (takeSteps ((flatItems chain).length + 1) (initCursor chain)).1 =
        (flatItems chain).map some ++ [none] ∧
    (takeSteps ((flatItems chain).length + 1) (initCursor chain)).2.calls =
        chain.length ∧
    exhausted (takeSteps ((flatItems chain).length + 1) (initCursor chain)).2 = true ∧
    next (takeSteps ((flatItems chain).length + 1) (initCursor chain)).2 =
      (none, (takeSteps ((flatItems chain).length + 1) (initCursor chain)).2) := by
  have hne : chain ≠ [] := by
    intro h
    rw [h] at hwf
    simp [wfChain] at hwf
  rw [initCursor_eq]
  obtain ⟨o1, o2, o3⟩ :=
    stepChain chain hwf ((flatItems chain).length + 1) 0 0 0 0 (by omega)
  obtain ⟨f1, f2, f3⟩ := o3 (by omega)
  have hlim : (takeSteps ((flatItems chain).length + 1)
      (⟨[], 0, 0, 0, 0, false, chain, 0⟩ : Cursor)).2.limit = 0 :=
    takeSteps_limit _ _
  refine ⟨?_, ?_, ?_, ?_⟩
  · rw [o1, List.take_of_length_le (by omega)]
    congr 1
    have : (flatItems chain).length + 1 - (flatItems chain).length = 1 := by omega
    rw [this]
    rfl
  · rw [o2, callsForSteps_exceeds (pageCounts chain) _
      (by simpa [pageCounts] using hne)
      (by rw [sum_pageCounts]; omega)]
    simp [pageCounts]
  · rw [exhausted, limitReached_eq_false _ hlim, f1, f2]
    rfl
  · exact next_stuck _ hlim f1 f2 f3

/-- Closed instance of C2 at the spec's example page chain `[0, 2, 1]`:
exactly 3 calls, the 3 items in order, then exhausted with a no-op
extra step. -/
theorem c2_pagination_witness :
    (takeSteps
        ((flatItems [⟨0, 0, [], true⟩, ⟨2, 6, [10, 20], true⟩, ⟨1, 3, [30], false⟩]).length + 1)
        (initCursor [⟨0, 0, [], true⟩, ⟨2, 6, [10, 20], true⟩, ⟨1, 3, [30], false⟩])).1 =
        (flatItems [⟨0, 0, [], true⟩, ⟨2, 6, [10, 20], true⟩, ⟨1, 3, [30], false⟩]).map some ++
          [none] ∧
    (takeSteps
        ((flatItems [⟨0, 0, [], true⟩, ⟨2, 6, [10, 20], true⟩, ⟨1, 3, [30], false⟩]).length + 1)
        (initCursor [⟨0, 0, [], true⟩, ⟨2, 6, [10, 20], true⟩, ⟨1, 3, [30], false⟩])).2.calls =
        ([⟨0, 0, [], true⟩, ⟨2, 6, [10, 20], true⟩, (⟨1, 3, [30], false⟩ : Page)]).length ∧
    exhausted (takeSteps
        ((flatItems [⟨0, 0, [], true⟩, ⟨2, 6, [10, 20], true⟩, ⟨1, 3, [30], false⟩]).length + 1)
        (initCursor [⟨0, 0, [], true⟩, ⟨2, 6, [10, 20], true⟩, ⟨1, 3, [30], false⟩])).2 = true ∧
    next (takeSteps
        ((flatItems [⟨0, 0, [], true⟩, ⟨2, 6, [10, 20], true⟩, ⟨1, 3, [30], false⟩]).length + 1)
        (initCursor [⟨0, 0, [], true⟩, ⟨2, 6, [10, 20], true⟩, ⟨1, 3, [30], false⟩])).2 =
      (none, (takeSteps
        ((flatItems [⟨0, 0, [], true⟩, ⟨2, 6, [10, 20], true⟩, ⟨1, 3, [30], false⟩]).length + 1)
        (initCursor [⟨0, 0, [], true⟩, ⟨2, 6, [10, 20], true⟩, ⟨1, 3, [30], false⟩])).2) :=
  c2_pagination [⟨0, 0, [], true⟩, ⟨2, 6, [10, 20], true⟩, ⟨1, 3, [30], false⟩] (by decide)


theorem takeSteps_two_fst (c : Cursor) :
    (takeSteps 2 c).1 = [(next c).1, (next (next c).2).1] := rfl

theorem one_snd (c : Cursor) : (one c).2 = (takeSteps 2 c).2 := by
  cases h1 : (next c).1 <;> cases h2 : (next (next c).2).1 <;>
    simp [one, takeSteps, h1, h2]

/-- C3: `one()` advances the cursor by exactly two steps over the page
chain, so its network calls match the two-step oracle; it returns the
unique item when the result set has exactly one item and fails with a
constraint violation — an error distinct from a usage error — when the
result set has zero items or at least two. -/
theorem c3_one_cardinality (chain : List Page) (hwf : wfChain chain = true) :
    (one (initCursor chain)).2.calls = callsForSteps (pageCounts chain) 2 ∧
    (∀ v, flatItems chain = [v] →
      (one (initCursor chain)).1 = Except.ok v) ∧
    (flatItems chain = [] →
      (one (initCursor chain)).1 = Except.error SearchErr.constraintViolation) ∧
    (2 ≤ (flatItems chain).length →
      (one (initCursor chain)).1 = Except.error SearchErr.constraintViolation) := by
  rw [initCursor_eq]
  obtain ⟨o1, o2, o3⟩ := stepChain chain hwf 2 0 0 0 0 (by omega)
  rw [takeSteps_two_fst] at o1
  refine ⟨?_, ?_, ?_, ?_⟩
  · rw [one_snd, o2]
    omega
  · intro v hv
    rw [hv] at o1
    simp at o1
    obtain ⟨e1, e2⟩ := o1
    simp [one, e1, e2]
  · intro hv
    rw [hv] at o1
    simp at o1
    obtain ⟨e1, e2⟩ := o1
    simp [one, e1, e2]
  · intro hlen
    obtain ⟨v1, rest1, h1⟩ : ∃ v1 rest1, flatItems chain = v1 :: rest1 := by
      cases hfc : flatItems chain with
      | nil => rw [hfc] at hlen; simp at hlen
      | cons v1 rest1 => exact ⟨v1, rest1, rfl⟩
    obtain ⟨v2, rest2, h2⟩ : ∃ v2 rest2, rest1 = v2 :: rest2 := by
      cases hr1 : rest1 with
      | nil =>
        rw [h1, hr1] at hlen
        simp at hlen
      | cons v2 rest2 => exact ⟨v2, rest2, rfl⟩
    rw [h1, h2] at o1
    simp at o1
    obtain ⟨e1, e2⟩ := o1
    simp [one, e1, e2]

/-- Closed instance of C3 on the single-item chain `[1]`: `one()`
returns the item after the oracle's two-step call count. -/
theorem c3_one_cardinality_witness :
    (one (initCursor [⟨1, 3, [42], false⟩])).2.calls =
        callsForSteps (pageCounts [⟨1, 3, [42], false⟩]) 2 ∧
    (∀ v, flatItems [(⟨1, 3, [42], false⟩ : Page)] = [v] →
      (one (initCursor [⟨1, 3, [42], false⟩])).1 = Except.ok v) ∧
    (flatItems [(⟨1, 3, [42], false⟩ : Page)] = [] →
      (one (initCursor [⟨1, 3, [42], false⟩])).1 =
        Except.error SearchErr.constraintViolation) ∧
    (2 ≤ (flatItems [(⟨1, 3, [42], false⟩ : Page)]).length →
      (one (initCursor [⟨1, 3, [42], false⟩])).1 =
        Except.error SearchErr.constraintViolation) :=
  c3_one_cardinality [⟨1, 3, [42], false⟩] (by decide)

/-! ## Query builder

Modelled from the spec (§6/§7): `bloop/filter.py` is not in the source
snapshot.  A query/scan builder holds the target table, an optional
secondary index (local or global), the consistent-read flag (unset,
or explicitly true/false), the direction flag and the limit; `build`
produces the scalar fields of the prepared wire request, each present
only when applicable. -/

inductive IndexKind
  | table
  | lsi (name : String)
  | gsi (name : String)
deriving DecidableEq, Repr

inductive QueryMode
  | query
  | scan
deriving DecidableEq, Repr

inductive FilterErr
  | consistentGSI
  | forwardScan
deriving DecidableEq, Repr

structure Filter where
  mode : QueryMode
  table : String
  index : IndexKind
  consistent_ : Option Bool
  forward_ : Bool
  limit_ : Nat
deriving DecidableEq, Repr

/-- Modelled from the spec (§7): requesting a strongly consistent read
on a globally distributed secondary index is a usage error raised at
the setter, before any network activity; otherwise the flag is
recorded. -/
def Filter.consistent (f : Filter) (b : Bool) : Except FilterErr Filter :=
  match f.index with
  | .gsi _ => .error .consistentGSI
  | _ => .ok { f with consistent_ := some b }

/-- Modelled from the spec (§7): `ScanIndexForward` applies to queries
only; setting it on a scan is a usage error. -/
def Filter.forward (f : Filter) (b : Bool) : Except FilterErr Filter :=
  match f.mode with
  | .scan => .error .forwardScan
  | .query => .ok { f with forward_ := b }

/-- The scalar top-level keys of the compiled request (§6); `none`
means the key is omitted entirely. -/
structure PreparedRequest where
  tableName : String
  indexName : Option String
  consistentRead : Option Bool
  scanIndexForward : Option Bool
  limit : Option Nat
deriving DecidableEq, Repr

/-- Modelled from the spec (§6): `TableName` always; `IndexName` only
for index-backed queries; `ConsistentRead` omitted — not forced — when
unset or when targeting a global secondary index; `ScanIndexForward`
query-only; `Limit` omitted when zero/unbounded. -/
def Filter.build (f : Filter) : PreparedRequest :=
  { tableName := f.table
    indexName :=
      match f.index with
      | .table => none
      | .lsi n => some n
      | .gsi n => some n
    consistentRead :=
      match f.index with
      | .gsi _ => none
      | _ => f.consistent_
    scanIndexForward :=
      match f.mode with
      | .query => some f.forward_
      | .scan => none
    limit := if f.limit_ = 0 then none else some f.limit_ }

/-- C7: on a query targeting a global secondary index, requesting a
strongly consistent read is a synchronous usage error at the setter,
and the built request omits the `ConsistentRead` key entirely — it is
not forced to false — even when the internal flag was set at
construction; on a non-index or local-index query the flag is emitted
exactly as stored. -/
theorem c7_consistent_gsi (f : Filter) (b : Bool) :
    (∀ n, f.index = IndexKind.gsi n →
      f.consistent b = Except.error FilterErr.consistentGSI ∧
      f.build.consistentRead = none) ∧
    ((f.index = IndexKind.table ∨ ∃ n, f.index = IndexKind.lsi n) →
      f.build.consistentRead = f.consistent_) := by
  constructor
  · intro n h
    exact ⟨by simp [Filter.consistent, h], by simp [Filter.build, h]⟩
  · intro h
    rcases h with h | ⟨n, h⟩ <;> simp [Filter.build, h]

/-- Closed instance of C7: a GSI query with the consistent flag set at
construction still omits `ConsistentRead` and rejects the setter, and
the corresponding LSI query emits the stored flag. -/
theorem c7_consistent_gsi_witness :
    (Filter.consistent ⟨.query, "T", .gsi "by_email", some true, false, 4⟩ true =
        Except.error FilterErr.consistentGSI ∧
      (Filter.build ⟨.query, "T", .gsi "by_email", some true, false, 4⟩).consistentRead =
        none) ∧
    (Filter.build ⟨.query, "T", .lsi "by_joined", some false, false, 4⟩).consistentRead =
      some false := by
  constructor
  · exact (c7_consistent_gsi ⟨.query, "T", .gsi "by_email", some true, false, 4⟩
      true).1 "by_email" rfl
  · exact (c7_consistent_gsi ⟨.query, "T", .lsi "by_joined", some false, false, 4⟩
      true).2 (Or.inr ⟨"by_joined", rfl⟩)

/-! ## Change tracking

Modelled from the spec (§4.4): the tracking signal handlers are not in
the source snapshot.  A tracking record holds the object's set
attributes (unset attributes are simply absent), the marked-column
set, and the snapshot — the ordered clauses of the `And` condition
asserting the last-synchronized wire state. -/

structure TrackColumn where
  model_name : String
  dynamo_name : String
  typedef : Nat
deriving DecidableEq, Repr

/-- One clause of a snapshot condition: the column is absent
(`attribute_not_exists`) or equals a marshalled wire value. -/
inductive Clause
  | absent (dynamo_name : String)
  | isEq (dynamo_name : String) (w : Nat)
deriving DecidableEq, Repr

structure TrackedObj where
  attrs : List (String × Nat)
  marked : List String
  snapshot : List Clause
deriving DecidableEq, Repr

/-- Modelled from the spec (§4.4): a save (or load) event rebuilds the
snapshot wholesale from the columns the event reports as synchronized,
asserting equality against their just-marshalled wire values. -/
def onSaved (cols : List TrackColumn) (dumpf : Nat → Nat → Nat)
    (t : TrackedObj) : TrackedObj :=
  { t with snapshot := cols.filterMap (fun c =>
      (alookup c.model_name t.attrs).map
        (fun v => Clause.isEq c.dynamo_name (dumpf c.typedef v))) }

/-- Modelled from the spec (§4.4): a delete event always resets the
snapshot to "every declared column absent", irrespective of the
object's in-memory values, which remain untouched. -/
def onDeleted (cols : List TrackColumn) (t : TrackedObj) : TrackedObj :=
  { t with snapshot := cols.map (fun c => Clause.absent c.dynamo_name) }

/-- C8: a delete lifecycle event rebuilds the snapshot to assert that
every declared column is absent, independent of the object's in-memory
attributes and of any previously saved snapshot (including one just
rebuilt by a save event), and it leaves the in-memory attributes and
the marked set unchanged. -/
theorem c8_delete_resets (cols : List TrackColumn) (dumpf : Nat → Nat → Nat)
    (t t2 : TrackedObj) :
    (onDeleted cols t).attrs = t.attrs ∧
    (onDeleted cols t).marked = t.marked ∧
    (onDeleted cols t).snapshot = cols.map (fun c => Clause.absent c.dynamo_name) ∧
    (onDeleted cols t).snapshot = (onDeleted cols t2).snapshot ∧
    (onDeleted cols (onSaved cols dumpf t)).snapshot =
      cols.map (fun c => Clause.absent c.dynamo_name) ∧
    (onDeleted cols (onSaved cols dumpf t)).attrs = t.attrs := by
  exact ⟨rfl, rfl, rfl, rfl, rfl, rfl⟩

/-! ## Model serialization

Embedded from the source (`bloop/model.py`, `__BaseModel`).  A model
instance is its dictionary of set attributes keyed by model name; an
attribute missing from the dictionary is unset (`getattr` default).
`__init__` sets exactly the attributes passed to it, so `__load__`
produces an object whose set attributes are exactly the loaded ones.
Wire and native values are opaque numbers; the type engine's
`load`/`dump` are opaque functions of the column's type descriptor. -/

structure Column where
  model_name : String
  dynamo_name : String
  typedef : Nat
deriving DecidableEq, Repr

/-- Python dict assignment: replace the value of an existing key, or
append a new binding. -/
def dictSet {β : Type} (d : List (String × β)) (k : String) (v : β) :
    List (String × β) :=
  if d.any (fun p => p.1 = k) then
    d.map (fun p => if p.1 = k then (k, v) else p)
  else d ++ [(k, v)]

/-- `__dump__` (`bloop/model.py` lines 34–46): for each declared
column, read the model attribute; when it is set, dump it through the
type engine and store it under the column's wire name. -/
def dumpModel (cols : List Column) (dumpf : Nat → Nat → Nat)
    (obj : List (String × Nat)) : List (String × Nat) :=
  cols.foldl (fun attrs c =>
    match alookup c.model_name obj with
    | some v => dictSet attrs c.dynamo_name (dumpf c.typedef v)
    | none => attrs) []

/-- `__load__` (`bloop/model.py` lines 19–32): for each declared
column, read the wire dict; when the wire name is present, load the
value through the type engine and pass it to `init` under the model
name.  The result is the constructed object's set-attribute dict. -/
def loadModel (cols : List Column) (loadf : Nat → Nat → Nat)
    (values : List (String × Nat)) : List (String × Nat) :=
  cols.foldl (fun attrs c =>
    match alookup c.dynamo_name values with
    | some v => dictSet attrs c.model_name (loadf c.typedef v)
    | none => attrs) []

theorem dictSet_of_not_mem {β : Type} (d : List (String × β)) (k : String) (v : β)
    (h : ∀ p ∈ d, p.1 ≠ k) : dictSet d k v = d ++ [(k, v)] := by
  unfold dictSet
  rw [if_neg]
  intro hc
  rw [List.any_eq_true] at hc
  obtain ⟨p, hp, hpk⟩ := hc
  exact h p hp (by simpa using hpk)

/-- The serialization loop over columns with pairwise distinct keys
produces exactly one binding per column whose value is present. -/
theorem foldl_dictSet_go (kf : Column → String) (vf : Column → Option Nat) :
    ∀ (cols : List Column) (acc : List (String × Nat)),
      (cols.map kf).Nodup →
      (∀ c ∈ cols, ∀ p ∈ acc, p.1 ≠ kf c) →
      cols.foldl (fun attrs c =>
        match vf c with
        | some w => dictSet attrs (kf c) w
        | none => attrs) acc =
      acc ++ cols.filterMap (fun c => (vf c).map (fun w => (kf c, w))) := by
  intro cols
  induction cols with
  | nil => intro acc _ _; simp
  | cons c0 t ih =>
    intro acc hnd hacc
    rw [List.map_cons, List.nodup_cons] at hnd
    cases hv : vf c0 with
    | none =>
      rw [List.foldl_cons, List.filterMap_cons]
      simp only [hv]
      exact ih acc hnd.2 (fun c hc p hp => hacc c (List.mem_cons_of_mem c0 hc) p hp)
    | some w =>
      rw [List.foldl_cons, List.filterMap_cons]
      simp only [hv]
      rw [dictSet_of_not_mem acc (kf c0) w
        (fun p hp => hacc c0 (List.mem_cons_self c0 t) p hp)]
      have hside : ∀ c ∈ t, ∀ p ∈ acc ++ [(kf c0, w)], p.1 ≠ kf c := by
        intro c hc p hp
        rcases List.mem_append.mp hp with hp | hp
        · exact hacc c (List.mem_cons_of_mem c0 hc) p hp
        · have hpe : p = (kf c0, w) := by simpa using hp
          subst hpe
          intro hk
          exact hnd.1 ((show kf c0 = kf c from hk) ▸ List.mem_map_of_mem kf hc)
      rw [ih (acc ++ [(kf c0, w)]) hnd.2 hside]
      rw [List.append_assoc]
      rfl

theorem dumpModel_eq (cols : List Column) (dumpf : Nat → Nat → Nat)
    (obj : List (String × Nat))
    (hd : (cols.map (fun c => c.dynamo_name)).Nodup) :
    dumpModel cols dumpf obj =
      cols.filterMap (fun c =>
        ((alookup c.model_name obj).map (fun v => dumpf c.typedef v)).map
          (fun w => (c.dynamo_name, w))) := by
  unfold dumpModel
  have hstep : (fun (attrs : List (String × Nat)) (c : Column) =>
      match alookup c.model_name obj with
      | some v => dictSet attrs c.dynamo_name (dumpf c.typedef v)
      | none => attrs) =
    (fun attrs c =>
      match (alookup c.model_name obj).map (fun v => dumpf c.typedef v) with
      | some w => dictSet attrs c.dynamo_name w
      | none => attrs) := by
    funext attrs c
    cases alookup c.model_name obj <;> rfl
  rw [hstep]
  have hgo := foldl_dictSet_go (fun c => c.dynamo_name)
    (fun c => (alookup c.model_name obj).map (fun v => dumpf c.typedef v))
    cols [] hd (by simp)
  simpa using hgo

theorem loadModel_eq (cols : List Column) (loadf : Nat → Nat → Nat)
    (values : List (String × Nat))
    (hm : (cols.map (fun c => c.model_name)).Nodup) :
    loadModel cols loadf values =
      cols.filterMap (fun c =>
        ((alookup c.dynamo_name values).map (fun v => loadf c.typedef v)).map
          (fun w => (c.model_name, w))) := by
  unfold loadModel
  have hstep : (fun (attrs : List (String × Nat)) (c : Column) =>
      match alookup c.dynamo_name values with
      | some v => dictSet attrs c.model_name (loadf c.typedef v)
      | none => attrs) =
    (fun attrs c =>
      match (alookup c.dynamo_name values).map (fun v => loadf c.typedef v) with
      | some w => dictSet attrs c.model_name w
      | none => attrs) := by
    funext attrs c
    cases alookup c.dynamo_name values <;> rfl
  rw [hstep]
  have hgo := foldl_dictSet_go (fun c => c.model_name)
    (fun c => (alookup c.dynamo_name values).map (fun v => loadf c.typedef v))
    cols [] hm (by simp)
  simpa using hgo

theorem alookup_eq_none {β : Type} (n : String) (l : List (String × β))
    (h : ∀ p ∈ l, p.1 ≠ n) : alookup n l = none := by
  induction l with
  | nil => rfl
  | cons p t ih =>
    obtain ⟨k, v⟩ := p
    rw [alookup, if_neg (h (k, v) (List.mem_cons_self _ _))]
    exact ih (fun q hq => h q (List.mem_cons_of_mem _ hq))

theorem alookup_build_none (kf : Column → String) (vf : Column → Option Nat)
    (cols : List Column) (n : String) (hn : n ∉ cols.map kf) :
    alookup n (cols.filterMap (fun c => (vf c).map (fun w => (kf c, w)))) = none := by
  apply alookup_eq_none
  intro p hp
  rw [List.mem_filterMap] at hp
  obtain ⟨c, hc, hval⟩ := hp
  cases hv : vf c with
  | none =>
    rw [hv] at hval
    exact Option.noConfusion hval
  | some w =>
    rw [hv] at hval
    rw [Option.map_some'] at hval
    have hval2 : (kf c, w) = p := Option.some.inj hval
    cases hval2
    intro hk
    exact hn ((show kf c = n from hk) ▸ List.mem_map_of_mem kf hc)

theorem alookup_build (kf : Column → String) (vf : Column → Option Nat) :
    ∀ (cols : List Column), (cols.map kf).Nodup → ∀ c ∈ cols,
      alookup (kf c) (cols.filterMap (fun c2 => (vf c2).map (fun w => (kf c2, w)))) =
        vf c := by
  intro cols
  induction cols with
  | nil => intro _ c hc; simp at hc
  | cons c0 t ih =>
    intro hnd c hc
    rw [List.map_cons, List.nodup_cons] at hnd
    rcases List.mem_cons.mp hc with rfl | hct
    · cases hv : vf c with
      | none =>
        rw [List.filterMap_cons_none (by simp [hv])]
        exact alookup_build_none kf vf t (kf c) hnd.1
      | some w =>
        rw [@List.filterMap_cons_some Column (String × Nat) _ _ _ (kf c, w)
          (by rw [hv]; rfl)]
        rw [alookup, if_pos rfl]
    · have hne : kf c0 ≠ kf c := by
        intro hk
        exact hnd.1 (hk ▸ List.mem_map_of_mem kf hct)
      cases hv : vf c0 with
      | none =>
        rw [List.filterMap_cons_none (by simp [hv])]
        exact ih hnd.2 c hct
      | some w =>
        rw [@List.filterMap_cons_some Column (String × Nat) _ _ _ (kf c0, w)
          (by rw [hv]; rfl)]
        rw [alookup, if_neg hne]
        exact ih hnd.2 c hct

/-- C9: serialization mirrors attribute presence exactly: `__dump__`
emits, under each column's wire name, exactly the dumped values of the
set model attributes — unset attributes are omitted, never emitted as
null — and no other key; dually, `__load__` constructs an object whose
set attributes are exactly the loaded values of the wire entries that
are present, leaving columns missing from the input entirely unset. -/
theorem c9_dump_load_mirror (cols : List Column) (dumpf loadf : Nat → Nat → Nat)
    (obj values : List (String × Nat))
    (hd : (cols.map (fun c => c.dynamo_name)).Nodup)
    (hm : (cols.map (fun c => c.model_name)).Nodup) :
    (∀ c ∈ cols, alookup c.dynamo_name (dumpModel cols dumpf obj) =
      (alookup c.model_name obj).map (fun v => dumpf c.typedef v)) ∧
    (∀ n, n ∉ cols.map (fun c => c.dynamo_name) →
      alookup n (dumpModel cols dumpf obj) = none) ∧
    (∀ c ∈ cols, alookup c.model_name (loadModel cols loadf values) =
      (alookup c.dynamo_name values).map (fun v => loadf c.typedef v)) ∧
    (∀ n, n ∉ cols.map (fun c => c.model_name) →
      alookup n (loadModel cols loadf values) = none) := by
  refine ⟨?_, ?_, ?_, ?_⟩
  · intro c hc
    rw [dumpModel_eq cols dumpf obj hd]
    exact alookup_build (fun c => c.dynamo_name)
      (fun c => (alookup c.model_name obj).map (fun v => dumpf c.typedef v))
      cols hd c hc
  · intro n hn
    rw [dumpModel_eq cols dumpf obj hd]
    exact alookup_build_none (fun c => c.dynamo_name)
      (fun c => (alookup c.model_name obj).map (fun v => dumpf c.typedef v))
      cols n hn
  · intro c hc
    rw [loadModel_eq cols loadf values hm]
    exact alookup_build (fun c => c.model_name)
      (fun c => (alookup c.dynamo_name values).map (fun v => loadf c.typedef v))
      cols hm c hc
  · intro n hn
    rw [loadModel_eq cols loadf values hm]
    exact alookup_build_none (fun c => c.model_name)
      (fun c => (alookup c.dynamo_name values).map (fun v => loadf c.typedef v))
      cols n hn

/-- Closed instance of C9 on a two-column model with one attribute set
and one wire entry present: the dump contains exactly the set column,
the load sets exactly the present column. -/
theorem c9_dump_load_mirror_witness :
    (∀ c ∈ [(⟨"age", "age_w", 0⟩ : Column), ⟨"name", "name_w", 1⟩],
      alookup c.dynamo_name
          (dumpModel [⟨"age", "age_w", 0⟩, ⟨"name", "name_w", 1⟩]
            (fun t v => v + 10 * t) [("age", 3)]) =
        (alookup c.model_name [("age", 3)]).map (fun v => v + 10 * c.typedef)) ∧
    (∀ n, n ∉ ([(⟨"age", "age_w", 0⟩ : Column), ⟨"name", "name_w", 1⟩]).map
        (fun c => c.dynamo_name) →
      alookup n (dumpModel [⟨"age", "age_w", 0⟩, ⟨"name", "name_w", 1⟩]
        (fun t v => v + 10 * t) [("age", 3)]) = none) ∧
    (∀ c ∈ [(⟨"age", "age_w", 0⟩ : Column), ⟨"name", "name_w", 1⟩],
      alookup c.model_name
          (loadModel [⟨"age", "age_w", 0⟩, ⟨"name", "name_w", 1⟩]
            (fun t v => v + 100 * t) [("name_w", 7)]) =
        (alookup c.dynamo_name [("name_w", 7)]).map (fun v => v + 100 * c.typedef)) ∧
    (∀ n, n ∉ ([(⟨"age", "age_w", 0⟩ : Column), ⟨"name", "name_w", 1⟩]).map
        (fun c => c.model_name) →
      alookup n (loadModel [⟨"age", "age_w", 0⟩, ⟨"name", "name_w", 1⟩]
        (fun t v => v + 100 * t) [("name_w", 7)]) = none) :=
  c9_dump_load_mirror [⟨"age", "age_w", 0⟩, ⟨"name", "name_w", 1⟩]
    (fun t v => v + 10 * t) (fun t v => v + 100 * t) [("age", 3)] [("name_w", 7)]
    (by decide) (by decide)

end Bloop
